import Mathlib

/-!
Ring buffer and dispatcher of `producer_consumer.cpp`.

Shallow embedding of `RingBuffer<T, Size>` and of the lock-protected steps of
`Dispatcher`, followed by the properties proved about them.

Conventions
* `size_t` values are naturals; `++` and `--` wrap modulo `2 ^ 64`.
* `array<T, Size>` is a map from slot number to contents; only the slots
  `0 .. Size - 1` are ever addressed (`writePos` / `readPos` are reduced
  modulo `Size` right after every increment).
* `int numWorking` is an unbounded integer.
-/

namespace ProducerConsumer

/-- Number of values of `size_t` (64 bit): arithmetic on cursors and on the
count wraps modulo this number. -/
def sizeMod : Nat := 18446744073709551616

/-- The class `RingBuffer<T, Size>`: the private members `buffer`, `readPos`,
`writePos`, `numFull`. -/
structure RingBuffer (T : Type) (Size : Nat) where
  buffer : Nat → T
  readPos : Nat
  writePos : Nat
  numFull : Nat

namespace RingBuffer

variable {T : Type} {Size : Nat}

/-- The constructor `RingBuffer()`: all three counters zero, the array holding
default-constructed elements. -/
def new [Inhabited T] : RingBuffer T Size :=
  { buffer := fun _ => default, readPos := 0, writePos := 0, numFull := 0 }

/-- The method `push(T t)`:
`buffer[writePos] = t; writePos++; writePos %= Size; numFull++;` -/
def push (b : RingBuffer T Size) (t : T) : RingBuffer T Size :=
  { buffer := Function.update b.buffer b.writePos t
    readPos := b.readPos
    writePos := ((b.writePos + 1) % sizeMod) % Size
    numFull := (b.numFull + 1) % sizeMod }

/-- The method `pop()`:
`auto task = buffer[readPos]; readPos++; readPos %= Size; numFull--; return task;`
The result pairs the returned item with the buffer after the call. -/
def pop (b : RingBuffer T Size) : T × RingBuffer T Size :=
  (b.buffer b.readPos,
   { buffer := b.buffer
     readPos := ((b.readPos + 1) % sizeMod) % Size
     writePos := b.writePos
     numFull := (b.numFull + (sizeMod - 1)) % sizeMod })

/-- The method `empty()`: `numFull == 0`. -/
def empty (b : RingBuffer T Size) : Bool := b.numFull == 0

/-- The method `full()`: `numFull == Size`. -/
def full (b : RingBuffer T Size) : Bool := b.numFull == Size

/-- The items the buffer currently holds, oldest first: the `numFull` slots
starting at the read cursor, wrapping modulo `Size`. -/
def toList (b : RingBuffer T Size) : List T :=
  (List.range b.numFull).map (fun i => b.buffer ((b.readPos + i) % Size))

/-- Representation invariant: both cursors are valid slot numbers, the count
is at most the capacity, and the write cursor is `numFull` slots after the
read cursor. -/
def Valid (b : RingBuffer T Size) : Prop :=
  b.readPos < Size ∧ b.writePos < Size ∧ b.numFull ≤ Size ∧
    b.writePos = (b.readPos + b.numFull) % Size

end RingBuffer

/-- One call made on a ring buffer. -/
inductive Op (T : Type) where
  | push (t : T)
  | pop
  deriving DecidableEq, Repr

/-- Applies a sequence of calls with no regard to the preconditions; collects
the items returned by the `pop` calls. -/
def applyOps {T : Type} {Size : Nat} :
    RingBuffer T Size → List (Op T) → RingBuffer T Size × List T
  | b, [] => (b, [])
  | b, Op.push t :: ops => applyOps (b.push t) ops
  | b, Op.pop :: ops =>
      let r := applyOps b.pop.2 ops
      (r.1, b.pop.1 :: r.2)

/-- Applies a sequence of calls made by a caller who respects the
preconditions: `push` is only called when `full()` is false, `pop` only when
`empty()` is false. The result is `none` when the sequence contains a call
that such a caller would not make. -/
def runOps {T : Type} {Size : Nat} :
    RingBuffer T Size → List (Op T) → Option (RingBuffer T Size × List T)
  | b, [] => some (b, [])
  | b, Op.push t :: ops => if b.full then none else runOps (b.push t) ops
  | b, Op.pop :: ops =>
      if b.empty then none
      else (runOps b.pop.2 ops).map (fun r => (r.1, b.pop.1 :: r.2))

/-- Bounded FIFO queue as the specification describes it: a list of at most
`N` items, `push` appends at the back, `pop` removes the front. -/
def specRun {T : Type} (N : Nat) : List T → List (Op T) → Option (List T × List T)
  | l, [] => some (l, [])
  | l, Op.push t :: ops => if l.length = N then none else specRun N (l ++ [t]) ops
  | [], Op.pop :: _ => none
  | x :: l, Op.pop :: ops => (specRun N l ops).map (fun r => (r.1, x :: r.2))

/-! ## The dispatcher

The shared state of `Dispatcher` (all of it read and written under `mutex`)
together with the control point of every thread. One step is what one thread
does between acquiring the lock and releasing it (by leaving the critical
section or by suspending in a wait), so steps of different threads interleave
but never overlap. The call `task.function(task.args)`, which a worker makes
with the lock released, is a step of its own (`workerCall`), and so is its
end by an exception (`workerThrow`): `worker` has no `try`, so a job that
throws ends the worker where it stands. In C++ an exception that leaves a
thread function calls `std::terminate`, which ends the whole process; the
steps here let the other threads go on, which covers both that case (no
further step is taken) and the case where only the worker is lost. -/

/-- The struct `task_t`: a job and the payload it was submitted with. -/
structure task_t (F A : Type) where
  function : F
  args : A
  deriving DecidableEq, Repr

instance {F A : Type} [Inhabited F] [Inhabited A] : Inhabited (task_t F A) :=
  ⟨⟨default, default⟩⟩

/-- Control point of a thread running `Dispatcher::worker`. -/
inductive WorkerPc (F A : Type) where
  /-- At the top of the loop, about to take the lock (line 142). -/
  | start
  /-- Inside `work_available.wait_for` (line 145), lock released. -/
  | waiting
  /-- Holds a popped task, has left the first critical section and has not
  yet made the call `task.function(task.args)` (lines 155 to 158). -/
  | working (task : task_t F A)
  /-- Has made the call `task.function(task.args)` (line 158): inside the
  job, or back from it and about to take the lock (line 162). -/
  | running (task : task_t F A)
  /-- Returned from `worker` (line 148). -/
  | exited
  /-- Ended by an exception thrown by `task.function(task.args)` (line 158):
  the worker never reached its second critical section. -/
  | aborted (task : task_t F A)
  deriving DecidableEq, Repr

/-- Control point of a thread that calls the public methods (a producer or
the controller). -/
inductive ClientPc (F A : Type) where
  /-- Not inside any call. -/
  | idle
  /-- Suspended in `consumer_ready.wait` inside `addTask` (line 110). -/
  | addSuspended (function : F) (args : A)
  /-- Woken inside `addTask`; will take the lock and evaluate the
  predicate again. -/
  | addRunnable (function : F) (args : A)
  /-- Suspended in `consumer_ready.wait` inside `syncWorkers` (line 101);
  `join` tells whether `syncWorkers` was called from `joinWorkers`. -/
  | syncSuspended (join : Bool)
  /-- Woken inside `syncWorkers`. -/
  | syncRunnable (join : Bool)
  /-- In `joinWorkers`, `syncWorkers` has returned, about to take the lock
  and set `finish` (line 88). -/
  | joinLocking
  /-- In `joinWorkers`, joining the worker threads (lines 92 to 94). -/
  | joining
  deriving DecidableEq, Repr

/-- A call of `buffer.push` or `buffer.pop` made by the dispatcher, with what
`full()` (for `push`) or `empty()` (for `pop`) answered when it was made. -/
inductive QueueCall where
  | push (wasFull : Bool)
  | pop (wasEmpty : Bool)
  deriving DecidableEq, Repr

/-- The call respected the precondition of the queue. -/
def QueueCall.respects : QueueCall → Bool
  | .push wasFull => !wasFull
  | .pop wasEmpty => !wasEmpty

/-- The class `Dispatcher` with its threads. Members `buffer`, `numWorking`,
`finish`; `workers` holds the control point of each spawned worker thread
and `clients` that of each thread calling the public methods. The remaining
fields are history variables that no step reads: the tasks pushed so far with
the client that pushed them, the tasks popped so far, the tasks whose job has
been called so far (in the order of the calls), the tasks whose worker has
reported completion, the queue calls made, and whether `joinWorkers` has been
called. -/
structure Dispatcher (F A : Type) where
  buffer : RingBuffer (task_t F A) 8
  numWorking : Int
  finish : Bool
  workers : List (WorkerPc F A)
  clients : List (ClientPc F A)
  submitted : List (Nat × task_t F A)
  claimed : List (task_t F A)
  started : List (task_t F A)
  finished : List (task_t F A)
  queueCalls : List QueueCall
  joinCalled : Bool

/-- What a thread does in one step. -/
inductive Action (F A : Type) where
  /-- Client `c` calls `spawnWorkers(numWorkers)`. -/
  | spawnWorkers (c : Nat) (numWorkers : Nat)
  /-- Client `c` calls `addTask(function, args)` and runs it up to its
  return or its first suspension. -/
  | addTask (c : Nat) (function : F) (args : A)
  /-- Client `c` calls `syncWorkers()`. -/
  | syncWorkers (c : Nat)
  /-- Client `c` calls `joinWorkers()`, which starts with `syncWorkers()`. -/
  | joinWorkers (c : Nat)
  /-- Client `c`, suspended on `consumer_ready`, wakes without having been
  notified (condition variables may wake spuriously). -/
  | spurious (c : Nat)
  /-- Client `c`, woken, takes the lock and evaluates its predicate. -/
  | resume (c : Nat)
  /-- Client `c` executes `finish = true` under the lock (lines 87 to 90). -/
  | setFinish (c : Nat)
  /-- The `join` loop of client `c` ends: every worker has returned. -/
  | joinDone (c : Nat)
  /-- Worker `w` takes the lock at the top of its loop. -/
  | workerLock (w : Nat)
  /-- Worker `w` returns from `wait_for`, by timeout or not. -/
  | workerWake (w : Nat) (timedOut : Bool)
  /-- Worker `w` has run its task and executes the second critical section;
  `notify_one` wakes client `pick` if some client is suspended. -/
  | workerDone (w : Nat) (pick : Nat)
  /-- Worker `w` calls `task.function(task.args)` on the task it popped
  (line 158). -/
  | workerCall (w : Nat)
  /-- The job called by worker `w` throws; nothing catches the exception and
  the worker ends. -/
  | workerThrow (w : Nat)
  deriving DecidableEq, Repr

/-- The step is a call of `addTask`. -/
def Action.isAddTask {F A : Type} : Action F A → Bool
  | .addTask _ _ _ => true
  | _ => false

namespace WorkerPc

variable {F A : Type}

/-- The task a worker has popped and whose completion it has not reported:
the worker is between its two critical sections, or has ended there. -/
def task? : WorkerPc F A → Option (task_t F A)
  | working task => some task
  | running task => some task
  | aborted task => some task
  | _ => none

/-- The task a worker has popped and whose job it has not called yet. -/
def pending? : WorkerPc F A → Option (task_t F A)
  | working task => some task
  | _ => none

/-- The worker thread has ended, by returning or by an exception. -/
def isEnded : WorkerPc F A → Bool
  | exited => true
  | aborted _ => true
  | _ => false

def isExited : WorkerPc F A → Bool
  | exited => true
  | _ => false

end WorkerPc

namespace ClientPc

variable {F A : Type}

/-- The thread is suspended on `consumer_ready`. -/
def isSuspended : ClientPc F A → Bool
  | addSuspended _ _ => true
  | syncSuspended _ => true
  | _ => false

/-- The thread has been woken from `consumer_ready` and not yet run. -/
def isRunnable : ClientPc F A → Bool
  | addRunnable _ _ => true
  | syncRunnable _ => true
  | _ => false

/-- The thread is inside `addTask`. -/
def inAddTask : ClientPc F A → Bool
  | addSuspended _ _ => true
  | addRunnable _ _ => true
  | _ => false

/-- The thread is inside `joinWorkers`. -/
def inJoin : ClientPc F A → Bool
  | syncSuspended join => join
  | syncRunnable join => join
  | joinLocking => true
  | joining => true
  | _ => false

/-- What being unblocked from `consumer_ready.wait` does to a thread. -/
def wake : ClientPc F A → ClientPc F A
  | addSuspended function args => addRunnable function args
  | syncSuspended join => syncRunnable join
  | pc => pc

end ClientPc

namespace Dispatcher

variable {F A : Type}

/-- The constructor `Dispatcher()` (`numWorking{0}`, `finish{false}`, empty
queue, no workers), with `numClients` threads that may call its methods. -/
def new [Inhabited F] [Inhabited A] (numClients : Nat) : Dispatcher F A :=
  { buffer := RingBuffer.new
    numWorking := 0
    finish := false
    workers := []
    clients := List.replicate numClients ClientPc.idle
    submitted := []
    claimed := []
    started := []
    finished := []
    queueCalls := []
    joinCalled := false }

/-- The method `allIdle()`: `numWorking == 0`. -/
def allIdle (d : Dispatcher F A) : Bool := d.numWorking == 0

/-- The wait predicate of `syncWorkers`: `buffer.empty() && allIdle()`. -/
def syncPredicate (d : Dispatcher F A) : Bool := d.buffer.empty && d.allIdle

/-- The wait predicate of `addTask`: `!buffer.full()`. -/
def addPredicate (d : Dispatcher F A) : Bool := !d.buffer.full

/-- The predicate a suspended or woken client waits for; `true` for a client
that is not inside a wait. -/
def waitPredicate (d : Dispatcher F A) : ClientPc F A → Bool
  | .addSuspended _ _ => d.addPredicate
  | .addRunnable _ _ => d.addPredicate
  | .syncSuspended _ => d.syncPredicate
  | .syncRunnable _ => d.syncPredicate
  | _ => true

/-- The method `spawnWorkers`: `numWorkers` new threads, each at the start of
`worker`. -/
def spawnWorkers (d : Dispatcher F A) (numWorkers : Nat) : Dispatcher F A :=
  { d with workers := d.workers ++ List.replicate numWorkers WorkerPc.start }

/-- The method `addTask` from the evaluation of the wait predicate with the
lock held (lines 110 to 116): if the buffer is full the thread suspends,
otherwise it pushes `{function, args}` and returns. The call
`work_available.notify_one()` changes no state here: a worker inside
`wait_for` may return at any time (step `workerWake`), notified or not. -/
def addTask (d : Dispatcher F A) (c : Nat) (function : F) (args : A) :
    Dispatcher F A :=
  if !d.buffer.full then
    { d with
      buffer := d.buffer.push ⟨function, args⟩
      clients := d.clients.set c ClientPc.idle
      submitted := d.submitted ++ [(c, ⟨function, args⟩)]
      queueCalls := d.queueCalls ++ [QueueCall.push d.buffer.full] }
  else
    { d with clients := d.clients.set c (ClientPc.addSuspended function args) }

/-- The method `syncWorkers` from the evaluation of the wait predicate with
the lock held (lines 101 to 103): returns if the buffer is empty and no
worker is busy, suspends otherwise. When called from `joinWorkers` the
thread continues there. -/
def syncWorkers (d : Dispatcher F A) (c : Nat) (join : Bool) : Dispatcher F A :=
  if d.buffer.empty && d.allIdle then
    { d with clients :=
        d.clients.set c (if join then ClientPc.joinLocking else ClientPc.idle) }
  else
    { d with clients := d.clients.set c (ClientPc.syncSuspended join) }

/-- The first critical section of `worker` from the test of the loop
condition `buffer.empty()` with the lock held (lines 144 to 154): waits if
the buffer is empty, otherwise `task = buffer.pop(); numWorking++`. -/
def workerFetch (d : Dispatcher F A) (w : Nat) : Dispatcher F A :=
  if d.buffer.empty then
    { d with workers := d.workers.set w WorkerPc.waiting }
  else
    { d with
      buffer := d.buffer.pop.2
      numWorking := d.numWorking + 1
      workers := d.workers.set w (WorkerPc.working d.buffer.pop.1)
      claimed := d.claimed ++ [d.buffer.pop.1]
      queueCalls := d.queueCalls ++ [QueueCall.pop d.buffer.empty] }

/-- The worker after `wait_for` returned (lines 145 to 151): on a timeout
with `finish` set it returns, otherwise it tests the loop condition again. -/
def workerWake (d : Dispatcher F A) (w : Nat) (timedOut : Bool) : Dispatcher F A :=
  if timedOut && d.finish then
    { d with workers := d.workers.set w WorkerPc.exited }
  else
    d.workerFetch w

/-- The `notify_one` of `consumer_ready`: client `pick` is unblocked. -/
def notifyOne (clients : List (ClientPc F A)) (pick : Nat) : List (ClientPc F A) :=
  match clients[pick]? with
  | some pc => clients.set pick pc.wake
  | none => clients

/-- Whether `notify_one` may unblock `pick`: it unblocks one of the waiting
threads, and has no effect when no thread is waiting. -/
def canNotify (clients : List (ClientPc F A)) (pick : Nat) : Bool :=
  match clients[pick]? with
  | some pc => pc.isSuspended || clients.all (fun pc => !pc.isSuspended)
  | none => clients.all (fun pc => !pc.isSuspended)

/-- The second critical section of `worker` (lines 161 to 166):
`numWorking--; consumer_ready.notify_one();`, then back to the top of the
loop. -/
def workerDone (d : Dispatcher F A) (w : Nat) (task : task_t F A) (pick : Nat) :
    Dispatcher F A :=
  { d with
    numWorking := d.numWorking - 1
    workers := d.workers.set w WorkerPc.start
    clients := notifyOne d.clients pick
    finished := d.finished ++ [task] }

/-- The call `task.function(task.args)` of worker `w` (line 158), made with
the lock released: it touches no member of the dispatcher. -/
def workerCall (d : Dispatcher F A) (w : Nat) (task : task_t F A) : Dispatcher F A :=
  { d with
    workers := d.workers.set w (WorkerPc.running task)
    started := d.started ++ [task] }

/-- An exception leaves `task.function(task.args)` and, nothing catching it,
`worker`: the second critical section is not executed, so `numWorking` keeps
counting the worker. -/
def workerThrow (d : Dispatcher F A) (w : Nat) (task : task_t F A) : Dispatcher F A :=
  { d with workers := d.workers.set w (WorkerPc.aborted task) }

/-- One step of one thread; `none` when the thread is not at a control point
where it can take that step. -/
def step (d : Dispatcher F A) : Action F A → Option (Dispatcher F A)
  | .spawnWorkers c numWorkers =>
      match d.clients[c]? with
      | some .idle => some (d.spawnWorkers numWorkers)
      | _ => none
  | .addTask c function args =>
      match d.clients[c]? with
      | some .idle => some (d.addTask c function args)
      | _ => none
  | .syncWorkers c =>
      match d.clients[c]? with
      | some .idle => some (d.syncWorkers c false)
      | _ => none
  | .joinWorkers c =>
      match d.clients[c]? with
      | some .idle => some ({ d with joinCalled := true }.syncWorkers c true)
      | _ => none
  | .spurious c =>
      match d.clients[c]? with
      | some pc => if pc.isSuspended then some { d with clients := d.clients.set c pc.wake }
                   else none
      | none => none
  | .resume c =>
      match d.clients[c]? with
      | some (.addRunnable function args) => some (d.addTask c function args)
      | some (.syncRunnable join) => some (d.syncWorkers c join)
      | _ => none
  | .setFinish c =>
      match d.clients[c]? with
      | some .joinLocking =>
          some { d with finish := true, clients := d.clients.set c ClientPc.joining }
      | _ => none
  | .joinDone c =>
      match d.clients[c]? with
      | some .joining =>
          if d.workers.all WorkerPc.isExited then
            some { d with clients := d.clients.set c ClientPc.idle }
          else none
      | _ => none
  | .workerLock w =>
      match d.workers[w]? with
      | some .start => some (d.workerFetch w)
      | _ => none
  | .workerWake w timedOut =>
      match d.workers[w]? with
      | some .waiting => some (d.workerWake w timedOut)
      | _ => none
  | .workerDone w pick =>
      match d.workers[w]? with
      | some (.running task) =>
          if canNotify d.clients pick then some (d.workerDone w task pick) else none
      | _ => none
  | .workerCall w =>
      match d.workers[w]? with
      | some (.working task) => some (d.workerCall w task)
      | _ => none
  | .workerThrow w =>
      match d.workers[w]? with
      | some (.running task) => some (d.workerThrow w task)
      | _ => none

/-- Runs a sequence of steps. -/
def run (d : Dispatcher F A) : List (Action F A) → Option (Dispatcher F A)
  | [] => some d
  | a :: acts => (d.step a).bind (fun d' => d'.run acts)

/-- The states the dispatcher can be in: those a freshly constructed
dispatcher reaches by some interleaving of steps of its threads. -/
def Reachable [Inhabited F] [Inhabited A] (d : Dispatcher F A) : Prop :=
  ∃ numClients acts, (new numClients).run acts = some d

/-- The tasks popped by workers whose completion has not been reported. -/
def inFlight (d : Dispatcher F A) : List (task_t F A) :=
  d.workers.filterMap WorkerPc.task?

/-- The tasks popped by workers whose job has not been called yet. -/
def pending (d : Dispatcher F A) : List (task_t F A) :=
  d.workers.filterMap WorkerPc.pending?

/-- Invariant of the job calls: the popped tasks are the tasks whose job has
been called plus the tasks still to be called (as multisets), and as long as
there is at most one worker the popped tasks are, in order, the called ones
followed by the one still to be called. -/
structure CallInv (d : Dispatcher F A) : Prop where
  called : d.claimed.Perm (d.started ++ d.pending)
  single : d.workers.length ≤ 1 → d.claimed = d.started ++ d.pending

/-- The queue is empty and no worker holds a task or is counted as busy, and
no client is inside `addTask`. -/
def Quiet (d : Dispatcher F A) : Prop :=
  d.buffer.numFull = 0 ∧ d.numWorking = 0 ∧ d.inFlight = [] ∧
    ∀ pc ∈ d.clients, pc.inAddTask = false

/-- At most one client is suspended on `consumer_ready`. -/
def AtMostOneSuspended (d : Dispatcher F A) : Prop :=
  ∀ (c c' : Nat) (pc pc' : ClientPc F A), d.clients[c]? = some pc →
    d.clients[c']? = some pc' → pc.isSuspended = true → pc'.isSuspended = true →
    c = c'

/-- The discipline under which shutdown is used: no `addTask` call is made
once `joinWorkers` has been called, and `joinWorkers` is called only when no
`addTask` call is still in progress (as when one controller thread makes
every `addTask` call and then calls `joinWorkers`). -/
def submitsBeforeJoin (d : Dispatcher F A) : Action F A → Bool
  | .addTask _ _ _ => !d.joinCalled
  | .joinWorkers _ => d.clients.all (fun pc => !pc.inAddTask)
  | _ => true

/-- Runs a sequence of steps each of which keeps to `submitsBeforeJoin`. -/
def runDisciplined (d : Dispatcher F A) : List (Action F A) → Option (Dispatcher F A)
  | [] => some d
  | a :: acts =>
      if d.submitsBeforeJoin a then (d.step a).bind (fun d' => d'.runDisciplined acts)
      else none

/-- The queue is empty and `numWorking == 0`. -/
def Drained (d : Dispatcher F A) : Prop :=
  d.buffer.numFull = 0 ∧ d.numWorking = 0

/-- Invariant of disciplined runs: `finish` is only set, and a client is only
past the `syncWorkers` of `joinWorkers`, in a drained state; a client inside
`joinWorkers` implies that `joinWorkers` has been called, and from then on no
client is inside `addTask`. -/
structure ShutdownInv (d : Dispatcher F A) : Prop where
  flag : d.finish = true → d.joinCalled = true ∧ d.Drained
  join : ∀ pc ∈ d.clients, pc.inJoin = true → d.joinCalled = true
  noAdd : d.joinCalled = true → ∀ pc ∈ d.clients, pc.inAddTask = false
  locking : ClientPc.joinLocking ∈ d.clients → d.Drained

/-- Only `joinWorkers` sets `finish`: when the flag is set, or a client is
inside `joinWorkers`, `joinWorkers` has been called. -/
def JoinInv (d : Dispatcher F A) : Prop :=
  (d.finish = true → d.joinCalled = true) ∧
    ∀ pc ∈ d.clients, pc.inJoin = true → d.joinCalled = true

/-- Client `c` is inside the call `addTask(function, args)`, suspended or
woken but not yet through its wait. -/
def InAddTask (d : Dispatcher F A) (c : Nat) (function : F) (args : A) : Prop :=
  d.clients[c]? = some (ClientPc.addSuspended function args) ∨
    d.clients[c]? = some (ClientPc.addRunnable function args)

/-- The step `a` from `d` to `d'` is one in which client `c` returns from
`syncWorkers`: it evaluates the wait predicate (on entry, or after having
been woken) and leaves the wait, to its caller or, inside `joinWorkers`, to
the code after the call. -/
def SyncReturn (d : Dispatcher F A) (a : Action F A) (d' : Dispatcher F A)
    (c : Nat) : Prop :=
  d.step a = some d' ∧
    ((a = Action.syncWorkers c ∧ d'.clients[c]? = some ClientPc.idle) ∨
     (a = Action.joinWorkers c ∧ d'.clients[c]? = some ClientPc.joinLocking) ∨
     (a = Action.resume c ∧ d.clients[c]? = some (ClientPc.syncRunnable false) ∧
        d'.clients[c]? = some ClientPc.idle) ∨
     (a = Action.resume c ∧ d.clients[c]? = some (ClientPc.syncRunnable true) ∧
        d'.clients[c]? = some ClientPc.joinLocking))

/-- Invariant of the shared state: the ring buffer is well formed, every
queue call made so far respected its precondition, `numWorking` counts the
workers holding a task, every pushed task is finished, in flight or queued
(as multisets), and the pushed tasks are the popped ones followed by the
queued ones. -/
structure Inv (d : Dispatcher F A) : Prop where
  valid : d.buffer.Valid
  calls : ∀ q ∈ d.queueCalls, q.respects = true
  working : d.numWorking = (d.inFlight.length : Int)
  conserve : (d.submitted.map Prod.snd).Perm
    (d.finished ++ d.inFlight ++ d.buffer.toList)
  fifo : d.submitted.map Prod.snd = d.claimed ++ d.buffer.toList

end Dispatcher

/-! ## The jobs

`firstThing` and `secondThing` compute with `int`. Signed overflow is
undefined behaviour, so a computation yields `none` as soon as an intermediate
value leaves the 32 bit range. -/

/-- Smallest value of `int`. -/
def INT_MIN : Int := -2147483648

/-- Largest value of `int`. -/
def INT_MAX : Int := 2147483647

/-- The result of an `int` operation whose exact value is `x`. -/
def checkedInt (x : Int) : Option Int :=
  if INT_MIN ≤ x ∧ x ≤ INT_MAX then some x else none

/-- The loop `for (auto i = lo; i < hi; ++i) acc = body(i, acc);` with
`count` iterations left and `i` the current value of the loop variable. -/
def forLoop (body : Int → Int → Option Int) : Nat → Int → Int → Option Int
  | 0, _, acc => some acc
  | count + 1, i, acc => (body i acc).bind (forLoop body count (i + 1))

/-- The struct `args1_t`. -/
structure args1_t where
  addUpTo : Int
  deriving DecidableEq, Repr

/-- The struct `args2_t`. -/
structure args2_t where
  multUpTo : Int
  deriving DecidableEq, Repr

/-- The function `firstThing`, as the value of `sum` that it prints:
`int sum = 0; for (auto i = 0; i < args.addUpTo; ++i) sum += i;`
The loop runs `addUpTo - 0` times when that is positive, else not at all. -/
def firstThing (args : args1_t) : Option Int :=
  forLoop (fun i sum => checkedInt (sum + i)) (args.addUpTo - 0).toNat 0 0

/-- The function `secondThing`, as the value of `prod` that it prints:
`int prod = 1; for (auto i = 1; i < args.multUpTo; ++i) prod *= i;`
The loop runs `multUpTo - 1` times when that is positive, else not at all. -/
def secondThing (args : args2_t) : Option Int :=
  forLoop (fun i prod => checkedInt (prod * i)) (args.multUpTo - 1).toNat 1 1

/-! ## Ring buffer lemmas -/

namespace RingBuffer

variable {T : Type}

theorem valid_new [Inhabited T] : (new : RingBuffer T 8).Valid := by
  simp [Valid, new]

theorem length_toList {Size : Nat} (b : RingBuffer T Size) :
    b.toList.length = b.numFull := by
  simp [toList]

theorem valid_push (b : RingBuffer T 8) (t : T) (hv : b.Valid)
    (hf : b.full = false) : (b.push t).Valid := by
  obtain ⟨h1, h2, h3, h4⟩ := hv
  have hf' : b.numFull ≠ 8 := by simpa [full] using hf
  simp only [Valid, push, sizeMod]
  omega

theorem valid_pop (b : RingBuffer T 8) (hv : b.Valid)
    (he : b.empty = false) : b.pop.2.Valid := by
  obtain ⟨h1, h2, h3, h4⟩ := hv
  have he' : b.numFull ≠ 0 := by simpa [empty] using he
  simp only [Valid, pop, sizeMod]
  omega

theorem toList_push (b : RingBuffer T 8) (t : T) (hv : b.Valid)
    (hf : b.full = false) : (b.push t).toList = b.toList ++ [t] := by
  obtain ⟨h1, h2, h3, h4⟩ := hv
  have hf' : b.numFull ≠ 8 := by simpa [full] using hf
  have hn : (b.numFull + 1) % sizeMod = b.numFull + 1 := by
    simp only [sizeMod]; omega
  simp only [toList, push, hn, List.range_succ, List.map_append, List.map_cons,
    List.map_nil]
  congr 1
  · apply List.map_congr_left
    intro i hi
    have hi' : i < b.numFull := List.mem_range.mp hi
    have hne : (b.readPos + i) % 8 ≠ b.writePos := by omega
    simp [Function.update_noteq hne]
  · rw [← h4]
    simp

theorem toList_pop (b : RingBuffer T 8) (hv : b.Valid)
    (he : b.empty = false) : b.toList = b.pop.1 :: b.pop.2.toList := by
  obtain ⟨h1, h2, h3, h4⟩ := hv
  have he' : b.numFull ≠ 0 := by simpa [empty] using he
  obtain ⟨n, hn⟩ : ∃ n, b.numFull = n + 1 := ⟨b.numFull - 1, by omega⟩
  have hm : (b.numFull + (sizeMod - 1)) % sizeMod = n := by
    simp only [sizeMod]; omega
  have hr : (b.readPos + 1) % sizeMod = b.readPos + 1 := by
    simp only [sizeMod]; omega
  unfold toList pop
  simp only [hm, hr]
  rw [hn, List.range_succ_eq_map, List.map_cons, List.map_map]
  refine congrArg₂ List.cons ?_ ?_
  · simp [Nat.mod_eq_of_lt h1]
  · apply List.map_congr_left
    intro i hi
    have : ((b.readPos + 1) % 8 + i) % 8 = (b.readPos + (i + 1)) % 8 := by
      omega
    simp [this]

theorem full_eq_length {Size : Nat} (b : RingBuffer T Size) :
    b.full = decide (b.toList.length = Size) := by
  simp only [full, length_toList]
  by_cases h : b.numFull = Size <;> simp [h]

theorem empty_eq_length {Size : Nat} (b : RingBuffer T Size) :
    b.empty = decide (b.toList.length = 0) := by
  simp only [empty, length_toList]
  by_cases h : b.numFull = 0 <;> simp [h]

end RingBuffer

/-- Simulation step: a precondition-respecting run of the ring buffer from a
valid state is a run of the list queue from the list the buffer holds, with
the same returned items; the final buffer is valid and holds the final list. -/
theorem runOps_simulates {T : Type} (ops : List (Op T)) :
    ∀ b : RingBuffer T 8, b.Valid →
      (∀ r, runOps b ops = some r →
        r.1.Valid ∧ specRun 8 b.toList ops = some (r.1.toList, r.2)) ∧
      (runOps b ops = none → specRun 8 b.toList ops = none) := by
  induction ops with
  | nil =>
    intro b hv
    refine ⟨?_, ?_⟩
    · intro r hr
      simp only [runOps, Option.some.injEq] at hr
      subst hr
      exact ⟨hv, by simp [specRun]⟩
    · intro h
      simp [runOps] at h
  | cons op ops ih =>
    intro b hv
    cases op with
    | push t =>
      by_cases hf : b.full = true
      · have hl : b.toList.length = 8 := by
          simpa [RingBuffer.full, RingBuffer.length_toList] using hf
        simp [runOps, specRun, hf, hl]
      · have hf' : b.full = false := by simpa using hf
        have hl : ¬ b.toList.length = 8 := by
          simpa [RingBuffer.full, RingBuffer.length_toList] using hf'
        have hv' := RingBuffer.valid_push b t hv hf'
        have := ih (b.push t) hv'
        rw [RingBuffer.toList_push b t hv hf'] at this
        simpa [runOps, specRun, hf', hl] using this
    | pop =>
      by_cases he : b.empty = true
      · have hl : b.toList = [] := by
          have : b.toList.length = 0 := by
            simpa [RingBuffer.empty, RingBuffer.length_toList] using he
          exact List.length_eq_zero.mp this
        simp [runOps, specRun, he, hl]
      · have he' : b.empty = false := by simpa using he
        have hv' := RingBuffer.valid_pop b hv he'
        have hl := RingBuffer.toList_pop b hv he'
        obtain ⟨ih1, ih2⟩ := ih b.pop.2 hv'
        have key : runOps b (Op.pop :: ops) =
            (runOps b.pop.2 ops).map (fun r => (r.1, b.pop.1 :: r.2)) := by
          rw [runOps, if_neg (by simp [he'])]
        rw [hl, key]
        generalize b.pop.2.toList = l at ih1 ih2
        generalize b.pop.1 = x
        generalize runOps b.pop.2 ops = o at ih1 ih2
        cases o with
        | none => simp [specRun, ih2 rfl]
        | some r' =>
          obtain ⟨hv2, hs⟩ := ih1 r' rfl
          simp [specRun, hs, hv2]

/-! ## Claims about the ring buffer -/

/-- C1: a fresh `RingBuffer<T,8>` driven by any sequence of `push` / `pop`
calls that respects the preconditions (guards taken from the code's `full()`
and `empty()`) behaves as the bounded list queue: the same sequences are
admissible, every `pop` returns what the list queue returns (the oldest item
not yet popped), the buffer holds exactly the list, and `empty()` / `full()`
are true exactly when the list has length 0 / 8. -/
theorem ringBuffer_refines_fifo {T : Type} [Inhabited T] (ops : List (Op T)) :
    (runOps (RingBuffer.new : RingBuffer T 8) ops).map
        (fun r => (r.2, r.1.toList, r.1.empty, r.1.full)) =
      (specRun 8 [] ops).map
        (fun r => (r.2, r.1, decide (r.1.length = 0), decide (r.1.length = 8))) := by
  have h := runOps_simulates ops (RingBuffer.new : RingBuffer T 8) RingBuffer.valid_new
  have h0 : (RingBuffer.new : RingBuffer T 8).toList = [] := by
    simp [RingBuffer.toList, RingBuffer.new]
  rw [h0] at h
  cases hr : runOps (RingBuffer.new : RingBuffer T 8) ops with
  | none => simp [h.2 hr]
  | some r =>
    obtain ⟨_, hs⟩ := h.1 r hr
    simp [hs, RingBuffer.full_eq_length, RingBuffer.empty_eq_length]

/-- C2 (as stated, refuted): nine `push` calls on a fresh buffer of capacity 8
leave `numFull = 9`, and a single `pop` on a fresh buffer wraps the unsigned
count to `2 ^ 64 - 1`; both exceed the capacity. -/
theorem numFull_exceeds_capacity_unguarded :
    (applyOps (RingBuffer.new : RingBuffer Nat 8)
        (List.replicate 9 (Op.push 0))).1.numFull = 9 ∧
    (applyOps (RingBuffer.new : RingBuffer Nat 8) [Op.pop]).1.numFull
        = 18446744073709551615 := by
  decide

/-- C2 (amended): for every sequence of `push` and `pop` calls on a fresh
buffer of capacity 8 in which `push` is only called when `full()` is false and
`pop` only when `empty()` is false, the count `numFull` is at most 8 (and, as
an unsigned value, it never wraps below zero). -/
theorem numFull_le_capacity {T : Type} [Inhabited T] (ops : List (Op T))
    (r : RingBuffer T 8 × List T)
    (h : runOps (RingBuffer.new : RingBuffer T 8) ops = some r) :
    r.1.numFull ≤ 8 :=
  ((runOps_simulates ops RingBuffer.new RingBuffer.valid_new).1 r h).1.2.2.1

theorem numFull_le_capacity_witness :
    ∃ r, runOps (RingBuffer.new : RingBuffer Nat 8)
        [Op.push 1, Op.push 2, Op.pop, Op.push 3] = some r ∧ r.1.numFull ≤ 8 := by
  have h : (runOps (RingBuffer.new : RingBuffer Nat 8)
      [Op.push 1, Op.push 2, Op.pop, Op.push 3]).isSome = true := rfl
  obtain ⟨r, hr⟩ := Option.isSome_iff_exists.mp h
  exact ⟨r, hr, numFull_le_capacity _ r hr⟩

/-- C9: `push` on a buffer whose count respects the capacity and that is not
full stores the item in the slot at the write cursor, advances the write
cursor by one modulo 8, increments the count by one, and leaves the read
cursor and every other slot unchanged. -/
theorem push_frame {T : Type} (b : RingBuffer T 8) (t : T)
    (hv : b.numFull ≤ 8) (hf : b.full = false) :
    (b.push t).buffer b.writePos = t ∧
    (b.push t).writePos = (b.writePos + 1) % 8 ∧
    (b.push t).numFull = b.numFull + 1 ∧
    (b.push t).readPos = b.readPos ∧
    ∀ i, i ≠ b.writePos → (b.push t).buffer i = b.buffer i := by
  have hf' : b.numFull ≠ 8 := by simpa [RingBuffer.full] using hf
  refine ⟨?_, ?_, ?_, rfl, ?_⟩
  · simp [RingBuffer.push]
  · simp only [RingBuffer.push, sizeMod]; omega
  · simp only [RingBuffer.push, sizeMod]; omega
  · intro i hi
    simp [RingBuffer.push, Function.update_noteq hi]

theorem push_frame_witness :
    ((RingBuffer.new : RingBuffer Nat 8).push 5).buffer 0 = 5 ∧
    ((RingBuffer.new : RingBuffer Nat 8).push 5).writePos = 1 ∧
    ((RingBuffer.new : RingBuffer Nat 8).push 5).numFull = 1 :=
  have h := push_frame (RingBuffer.new : RingBuffer Nat 8) 5 (by decide) (by decide)
  ⟨h.1, h.2.1, h.2.2.1⟩


/-! ## Dispatcher invariant -/

theorem filterMap_set_of_none {α β : Type} (f : α → Option β) (x : α) (hx : f x = none) :
    ∀ (l : List α) (i : Nat) (old : α), l[i]? = some old → f old = none →
      (l.set i x).filterMap f = l.filterMap f := by
  intro l
  induction l with
  | nil => intro i old h; simp at h
  | cons a l ih =>
    intro i old h ho
    cases i with
    | zero =>
      simp only [List.getElem?_cons_zero, Option.some.injEq] at h
      subst h
      simp [List.filterMap_cons, hx, ho]
    | succ i =>
      simp only [List.getElem?_cons_succ] at h
      simp [List.filterMap_cons, ih i old h ho]

theorem filterMap_set_same {α β : Type} (f : α → Option β) (x : α) :
    ∀ (l : List α) (i : Nat) (old : α), l[i]? = some old → f old = f x →
      (l.set i x).filterMap f = l.filterMap f := by
  intro l
  induction l with
  | nil => intro i old h; simp at h
  | cons a l ih =>
    intro i old h ho
    cases i with
    | zero =>
      simp only [List.getElem?_cons_zero, Option.some.injEq] at h
      subst h
      simp [List.filterMap_cons, ho]
    | succ i =>
      simp only [List.getElem?_cons_succ] at h
      simp [List.filterMap_cons, ih i old h ho]

theorem filterMap_set_insert {α β : Type} (f : α → Option β) (x : α) (t : β)
    (hx : f x = some t) :
    ∀ (l : List α) (i : Nat) (old : α), l[i]? = some old → f old = none →
      ((l.set i x).filterMap f).Perm (t :: l.filterMap f) := by
  intro l
  induction l with
  | nil => intro i old h; simp at h
  | cons a l ih =>
    intro i old h ho
    cases i with
    | zero =>
      simp only [List.getElem?_cons_zero, Option.some.injEq] at h
      subst h
      simp [List.filterMap_cons, hx, ho]
    | succ i =>
      simp only [List.getElem?_cons_succ] at h
      have := ih i old h ho
      simp only [List.set_cons_succ, List.filterMap_cons]
      cases f a with
      | none => simpa using this
      | some b => exact (this.cons b).trans (List.Perm.swap t b _)

theorem filterMap_set_remove {α β : Type} (f : α → Option β) (x : α)
    (hx : f x = none) :
    ∀ (l : List α) (i : Nat) (old : α) (t : β), l[i]? = some old → f old = some t →
      (l.filterMap f).Perm (t :: (l.set i x).filterMap f) := by
  intro l
  induction l with
  | nil => intro i old t h; simp at h
  | cons a l ih =>
    intro i old t h ho
    cases i with
    | zero =>
      simp only [List.getElem?_cons_zero, Option.some.injEq] at h
      subst h
      simp [List.filterMap_cons, hx, ho]
    | succ i =>
      simp only [List.getElem?_cons_succ] at h
      have := ih i old t h ho
      simp only [List.set_cons_succ, List.filterMap_cons]
      cases f a with
      | none => simpa using this
      | some b => exact (this.cons b).trans (List.Perm.swap t b _)

namespace Dispatcher

variable {F A : Type}

theorem inv_new [Inhabited F] [Inhabited A] (numClients : Nat) :
    (new numClients : Dispatcher F A).Inv := by
  refine ⟨RingBuffer.valid_new, ?_, ?_, ?_, ?_⟩ <;>
    simp [new, inFlight, RingBuffer.toList, RingBuffer.new]

/-- The invariant only reads the shared members, the tasks in flight and the
history lists. -/
theorem Inv.congr {d d' : Dispatcher F A} (h : d.Inv)
    (hb : d'.buffer = d.buffer) (hn : d'.numWorking = d.numWorking)
    (hi : d'.inFlight = d.inFlight) (hs : d'.submitted = d.submitted)
    (hc : d'.claimed = d.claimed) (hf : d'.finished = d.finished)
    (hq : d'.queueCalls = d.queueCalls) : d'.Inv := by
  obtain ⟨h1, h2, h3, h4, h5⟩ := h
  refine ⟨?_, ?_, ?_, ?_, ?_⟩
  · rw [hb]; exact h1
  · rw [hq]; exact h2
  · rw [hn, hi]; exact h3
  · rw [hs, hf, hi, hb]; exact h4
  · rw [hs, hc, hb]; exact h5

theorem inv_addTask (d : Dispatcher F A) (c : Nat) (function : F) (args : A)
    (h : d.Inv) : (d.addTask c function args).Inv := by
  unfold addTask
  by_cases hf : d.buffer.full = true
  · simp only [hf, Bool.not_true, Bool.false_eq_true, if_false]
    exact h.congr rfl rfl rfl rfl rfl rfl rfl
  · have hf' : d.buffer.full = false := by simpa using hf
    simp only [hf', Bool.not_false, if_true]
    obtain ⟨h1, h2, h3, h4, h5⟩ := h
    have hl := RingBuffer.toList_push d.buffer ⟨function, args⟩ h1 hf'
    refine ⟨RingBuffer.valid_push _ _ h1 hf', ?_, h3, ?_, ?_⟩
    · intro q hq
      simp only [List.mem_append, List.mem_singleton] at hq
      rcases hq with hq | hq
      · exact h2 q hq
      · subst hq; simp [QueueCall.respects]
    · show (List.map Prod.snd (d.submitted ++ [(c, ⟨function, args⟩)])).Perm
        (d.finished ++ d.inFlight ++ (d.buffer.push ⟨function, args⟩).toList)
      rw [hl, List.map_append, ← List.append_assoc]
      exact h4.append_right _
    · show List.map Prod.snd (d.submitted ++ [(c, ⟨function, args⟩)]) =
        d.claimed ++ (d.buffer.push ⟨function, args⟩).toList
      rw [hl, List.map_append, h5, List.append_assoc]
      rfl

theorem inv_syncWorkers (d : Dispatcher F A) (c : Nat) (join : Bool)
    (h : d.Inv) : (d.syncWorkers c join).Inv := by
  unfold syncWorkers
  split <;> exact h.congr rfl rfl rfl rfl rfl rfl rfl

theorem inv_workerFetch (d : Dispatcher F A) (w : Nat) (pc : WorkerPc F A)
    (hw : d.workers[w]? = some pc) (hpc : pc.task? = none) (h : d.Inv) :
    (d.workerFetch w).Inv := by
  unfold workerFetch
  by_cases he : d.buffer.empty = true
  · simp only [he, if_true]
    refine h.congr rfl rfl ?_ rfl rfl rfl rfl
    exact filterMap_set_of_none WorkerPc.task? WorkerPc.waiting rfl _ _ _ hw hpc
  · have he' : d.buffer.empty = false := by simpa using he
    simp only [he', Bool.false_eq_true, if_false]
    obtain ⟨h1, h2, h3, h4, h5⟩ := h
    have hl := RingBuffer.toList_pop d.buffer h1 he'
    have hv := RingBuffer.valid_pop d.buffer h1 he'
    have hp : ((d.workers.set w (WorkerPc.working d.buffer.pop.1)).filterMap
        WorkerPc.task?).Perm (d.buffer.pop.1 :: d.inFlight) :=
      filterMap_set_insert WorkerPc.task? (WorkerPc.working d.buffer.pop.1) _ rfl _ _ _ hw hpc
    rw [hl] at h4 h5
    generalize d.buffer.pop.1 = x at *
    generalize d.buffer.pop.2 = b' at *
    refine ⟨hv, ?_, ?_, ?_, ?_⟩
    · intro q hq
      simp only [List.mem_append, List.mem_singleton] at hq
      rcases hq with hq | hq
      · exact h2 q hq
      · subst hq; simp [QueueCall.respects]
    · show d.numWorking + 1 = ((List.filterMap WorkerPc.task? _).length : Int)
      rw [hp.length_eq, h3]
      simp
    · show (List.map Prod.snd d.submitted).Perm
        (d.finished ++ List.filterMap WorkerPc.task? _ ++ b'.toList)
      refine h4.trans ?_
      refine List.Perm.trans ?_ (((hp.symm).append_left d.finished).append_right _)
      simp only [List.append_assoc, List.cons_append]
      exact List.Perm.append_left _ List.perm_middle
    · show List.map Prod.snd d.submitted = d.claimed ++ [x] ++ b'.toList
      rw [h5]; simp

theorem inv_workerWake (d : Dispatcher F A) (w : Nat) (timedOut : Bool)
    (hw : d.workers[w]? = some WorkerPc.waiting) (h : d.Inv) :
    (d.workerWake w timedOut).Inv := by
  unfold workerWake
  split
  · refine h.congr rfl rfl ?_ rfl rfl rfl rfl
    exact filterMap_set_of_none WorkerPc.task? WorkerPc.exited rfl _ _ _ hw rfl
  · exact inv_workerFetch d w _ hw rfl h

theorem inv_workerDone (d : Dispatcher F A) (w : Nat) (task : task_t F A)
    (pick : Nat) (hw : d.workers[w]? = some (WorkerPc.running task)) (h : d.Inv) :
    (d.workerDone w task pick).Inv := by
  obtain ⟨h1, h2, h3, h4, h5⟩ := h
  have hp : d.inFlight.Perm
      (task :: (d.workers.set w WorkerPc.start).filterMap WorkerPc.task?) :=
    filterMap_set_remove WorkerPc.task? WorkerPc.start rfl _ _ _ _ hw rfl
  refine ⟨h1, h2, ?_, ?_, h5⟩
  · show d.numWorking - 1 =
      ((List.filterMap WorkerPc.task? (d.workers.set w WorkerPc.start)).length : Int)
    rw [h3, hp.length_eq]
    simp
  · show (List.map Prod.snd d.submitted).Perm
      (d.finished ++ [task] ++
        List.filterMap WorkerPc.task? (d.workers.set w WorkerPc.start) ++ d.buffer.toList)
    refine h4.trans ?_
    refine ((hp.append_left d.finished).append_right _).trans ?_
    simp

theorem inv_step (d d' : Dispatcher F A) (a : Action F A) (h : d.Inv)
    (hs : d.step a = some d') : d'.Inv := by
  cases a with
  | spawnWorkers c n =>
    simp only [step] at hs
    split at hs
    · simp only [Option.some.injEq] at hs
      subst hs
      refine h.congr rfl rfl ?_ rfl rfl rfl rfl
      simp [spawnWorkers, inFlight, List.filterMap_append, List.filterMap_replicate,
        WorkerPc.task?]
    · simp at hs
  | addTask c f x =>
    simp only [step] at hs
    split at hs
    · simp only [Option.some.injEq] at hs
      subst hs
      exact inv_addTask d c f x h
    · simp at hs
  | syncWorkers c =>
    simp only [step] at hs
    split at hs
    · simp only [Option.some.injEq] at hs
      subst hs
      exact inv_syncWorkers d c false h
    · simp at hs
  | joinWorkers c =>
    simp only [step] at hs
    split at hs
    · simp only [Option.some.injEq] at hs
      subst hs
      exact inv_syncWorkers _ c true (h.congr rfl rfl rfl rfl rfl rfl rfl)
    · simp at hs
  | spurious c =>
    simp only [step] at hs
    split at hs
    · split at hs
      · simp only [Option.some.injEq] at hs
        subst hs
        exact h.congr rfl rfl rfl rfl rfl rfl rfl
      · simp at hs
    · simp at hs
  | resume c =>
    simp only [step] at hs
    split at hs
    · simp only [Option.some.injEq] at hs
      subst hs
      exact inv_addTask d c _ _ h
    · simp only [Option.some.injEq] at hs
      subst hs
      exact inv_syncWorkers d c _ h
    · simp at hs
  | setFinish c =>
    simp only [step] at hs
    split at hs
    · simp only [Option.some.injEq] at hs
      subst hs
      exact h.congr rfl rfl rfl rfl rfl rfl rfl
    · simp at hs
  | joinDone c =>
    simp only [step] at hs
    split at hs
    · split at hs
      · simp only [Option.some.injEq] at hs
        subst hs
        exact h.congr rfl rfl rfl rfl rfl rfl rfl
      · simp at hs
    · simp at hs
  | workerLock w =>
    simp only [step] at hs
    split at hs
    · rename_i hw
      simp only [Option.some.injEq] at hs
      subst hs
      exact inv_workerFetch d w _ hw rfl h
    · simp at hs
  | workerWake w t =>
    simp only [step] at hs
    split at hs
    · rename_i hw
      simp only [Option.some.injEq] at hs
      subst hs
      exact inv_workerWake d w t hw h
    · simp at hs
  | workerDone w pick =>
    simp only [step] at hs
    split at hs
    · rename_i task hw
      split at hs
      · simp only [Option.some.injEq] at hs
        subst hs
        exact inv_workerDone d w task pick hw h
      · simp at hs
    · simp at hs
  | workerCall w =>
    simp only [step] at hs
    split at hs
    · rename_i task hw
      simp only [Option.some.injEq] at hs
      subst hs
      refine h.congr rfl rfl ?_ rfl rfl rfl rfl
      exact filterMap_set_same WorkerPc.task? (WorkerPc.running task) _ _ _ hw rfl
    · simp at hs
  | workerThrow w =>
    simp only [step] at hs
    split at hs
    · rename_i task hw
      simp only [Option.some.injEq] at hs
      subst hs
      refine h.congr rfl rfl ?_ rfl rfl rfl rfl
      exact filterMap_set_same WorkerPc.task? (WorkerPc.aborted task) _ _ _ hw rfl
    · simp at hs

theorem inv_run (acts : List (Action F A)) :
    ∀ d d' : Dispatcher F A, d.Inv → d.run acts = some d' → d'.Inv := by
  induction acts with
  | nil =>
    intro d d' h hr
    simp only [run, Option.some.injEq] at hr
    subst hr
    exact h
  | cons a acts ih =>
    intro d d' h hr
    simp only [run, Option.bind_eq_some] at hr
    obtain ⟨d1, h1, h2⟩ := hr
    exact ih d1 d' (inv_step d d1 a h h1) h2

theorem inv_of_reachable [Inhabited F] [Inhabited A] (d : Dispatcher F A)
    (h : d.Reachable) : d.Inv := by
  obtain ⟨n, acts, hr⟩ := h
  exact inv_run acts _ d (inv_new n) hr

end Dispatcher


/-! ## Back-pressure -/

theorem getElem?_set_of_some {α : Type} {l : List α} {i : Nat} {old : α}
    (h : l[i]? = some old) (x : α) (j : Nat) :
    (l.set i x)[j]? = if i = j then some x else l[j]? := by
  rw [List.getElem?_set']
  split
  · rename_i hij
    subst hij
    simp [h]
  · rfl

namespace Dispatcher

variable {F A : Type}

/-- Case analysis of a step: which thread moved, from which control point,
and what the state is afterwards. -/
theorem step_cases {d d' : Dispatcher F A} {a : Action F A}
    (hs : d.step a = some d') :
    (∃ c n, a = .spawnWorkers c n ∧ d.clients[c]? = some .idle ∧
      d' = d.spawnWorkers n) ∨
    (∃ c f x, a = .addTask c f x ∧ d.clients[c]? = some .idle ∧
      d' = d.addTask c f x) ∨
    (∃ c, a = .syncWorkers c ∧ d.clients[c]? = some .idle ∧
      d' = d.syncWorkers c false) ∨
    (∃ c, a = .joinWorkers c ∧ d.clients[c]? = some .idle ∧
      d' = { d with joinCalled := true }.syncWorkers c true) ∨
    (∃ c pc, a = .spurious c ∧ d.clients[c]? = some pc ∧ pc.isSuspended = true ∧
      d' = { d with clients := d.clients.set c pc.wake }) ∨
    (∃ c f x, a = .resume c ∧ d.clients[c]? = some (.addRunnable f x) ∧
      d' = d.addTask c f x) ∨
    (∃ c j, a = .resume c ∧ d.clients[c]? = some (.syncRunnable j) ∧
      d' = d.syncWorkers c j) ∨
    (∃ c, a = .setFinish c ∧ d.clients[c]? = some .joinLocking ∧
      d' = { d with finish := true, clients := d.clients.set c ClientPc.joining }) ∨
    (∃ c, a = .joinDone c ∧ d.clients[c]? = some .joining ∧
      d.workers.all WorkerPc.isExited = true ∧
      d' = { d with clients := d.clients.set c ClientPc.idle }) ∨
    (∃ w, a = .workerLock w ∧ d.workers[w]? = some .start ∧
      d' = d.workerFetch w) ∨
    (∃ w t, a = .workerWake w t ∧ d.workers[w]? = some .waiting ∧
      d' = d.workerWake w t) ∨
    (∃ w pick task, a = .workerDone w pick ∧
      d.workers[w]? = some (.running task) ∧ canNotify d.clients pick = true ∧
      d' = d.workerDone w task pick) ∨
    (∃ w task, a = .workerCall w ∧ d.workers[w]? = some (.working task) ∧
      d' = d.workerCall w task) ∨
    (∃ w task, a = .workerThrow w ∧ d.workers[w]? = some (.running task) ∧
      d' = d.workerThrow w task) := by
  cases a with
  | spawnWorkers c n =>
    simp only [step] at hs
    split at hs
    · rename_i hc
      exact Or.inl ⟨c, n, rfl, hc, by simpa using hs.symm⟩
    · simp at hs
  | addTask c f x =>
    simp only [step] at hs
    split at hs
    · rename_i hc
      exact Or.inr (Or.inl ⟨c, f, x, rfl, hc, by simpa using hs.symm⟩)
    · simp at hs
  | syncWorkers c =>
    simp only [step] at hs
    split at hs
    · rename_i hc
      exact Or.inr (Or.inr (Or.inl ⟨c, rfl, hc, by simpa using hs.symm⟩))
    · simp at hs
  | joinWorkers c =>
    simp only [step] at hs
    split at hs
    · rename_i hc
      exact Or.inr (Or.inr (Or.inr (Or.inl ⟨c, rfl, hc, by simpa using hs.symm⟩)))
    · simp at hs
  | spurious c =>
    simp only [step] at hs
    split at hs
    · rename_i pc hc
      split at hs
      · rename_i hp
        exact Or.inr (Or.inr (Or.inr (Or.inr (Or.inl
          ⟨c, pc, rfl, hc, hp, by simpa using hs.symm⟩))))
      · simp at hs
    · simp at hs
  | resume c =>
    simp only [step] at hs
    split at hs
    · rename_i f x hc
      exact Or.inr (Or.inr (Or.inr (Or.inr (Or.inr (Or.inl
        ⟨c, f, x, rfl, hc, by simpa using hs.symm⟩)))))
    · rename_i j hc
      exact Or.inr (Or.inr (Or.inr (Or.inr (Or.inr (Or.inr (Or.inl
        ⟨c, j, rfl, hc, by simpa using hs.symm⟩))))))
    · simp at hs
  | setFinish c =>
    simp only [step] at hs
    split at hs
    · rename_i hc
      exact Or.inr (Or.inr (Or.inr (Or.inr (Or.inr (Or.inr (Or.inr (Or.inl
        ⟨c, rfl, hc, by simpa using hs.symm⟩)))))))
    · simp at hs
  | joinDone c =>
    simp only [step] at hs
    split at hs
    · rename_i hc
      split at hs
      · rename_i hall
        exact Or.inr (Or.inr (Or.inr (Or.inr (Or.inr (Or.inr (Or.inr (Or.inr (Or.inl
          ⟨c, rfl, hc, hall, by simpa using hs.symm⟩))))))))
      · simp at hs
    · simp at hs
  | workerLock w =>
    simp only [step] at hs
    split at hs
    · rename_i hw
      exact Or.inr (Or.inr (Or.inr (Or.inr (Or.inr (Or.inr (Or.inr (Or.inr (Or.inr
        (Or.inl ⟨w, rfl, hw, by simpa using hs.symm⟩)))))))))
    · simp at hs
  | workerWake w t =>
    simp only [step] at hs
    split at hs
    · rename_i hw
      exact Or.inr (Or.inr (Or.inr (Or.inr (Or.inr (Or.inr (Or.inr (Or.inr (Or.inr
        (Or.inr (Or.inl ⟨w, t, rfl, hw, by simpa using hs.symm⟩))))))))))
    · simp at hs
  | workerDone w pick =>
    simp only [step] at hs
    split at hs
    · rename_i task hw
      split at hs
      · rename_i hn
        exact Or.inr (Or.inr (Or.inr (Or.inr (Or.inr (Or.inr (Or.inr (Or.inr (Or.inr
          (Or.inr (Or.inr (Or.inl
            ⟨w, pick, task, rfl, hw, hn, by simpa using hs.symm⟩)))))))))))
      · simp at hs
    · simp at hs
  | workerCall w =>
    simp only [step] at hs
    split at hs
    · rename_i task hw
      exact Or.inr (Or.inr (Or.inr (Or.inr (Or.inr (Or.inr (Or.inr (Or.inr (Or.inr
        (Or.inr (Or.inr (Or.inr (Or.inl
          ⟨w, task, rfl, hw, by simpa using hs.symm⟩))))))))))))
    · simp at hs
  | workerThrow w =>
    simp only [step] at hs
    split at hs
    · rename_i task hw
      exact Or.inr (Or.inr (Or.inr (Or.inr (Or.inr (Or.inr (Or.inr (Or.inr (Or.inr
        (Or.inr (Or.inr (Or.inr (Or.inr
          ⟨w, task, rfl, hw, by simpa using hs.symm⟩))))))))))))
    · simp at hs

theorem length_claimed_step (d d' : Dispatcher F A) (a : Action F A)
    (hs : d.step a = some d') : d.claimed.length ≤ d'.claimed.length := by
  have hfetch : ∀ w, d.claimed.length ≤ (d.workerFetch w).claimed.length := by
    intro w
    unfold workerFetch
    split <;> simp
  have hadd : ∀ c f x, (d.addTask c f x).claimed = d.claimed := by
    intro c f x
    unfold addTask
    split <;> rfl
  have hsync : ∀ (e : Dispatcher F A) c j, (e.syncWorkers c j).claimed = e.claimed := by
    intro e c j
    unfold syncWorkers
    split <;> rfl
  rcases step_cases hs with ⟨c, n, rfl, hc, rfl⟩ | ⟨c, f, x, rfl, hc, rfl⟩ |
    ⟨c, rfl, hc, rfl⟩ | ⟨c, rfl, hc, rfl⟩ | ⟨c, pc, rfl, hc, hp, rfl⟩ |
    ⟨c, f, x, rfl, hc, rfl⟩ | ⟨c, j, rfl, hc, rfl⟩ | ⟨c, rfl, hc, rfl⟩ |
    ⟨c, rfl, hc, hall, rfl⟩ | ⟨w, rfl, hw, rfl⟩ | ⟨w, t, rfl, hw, rfl⟩ |
    ⟨w, pick, task, rfl, hw, hn, rfl⟩ | ⟨w, task, rfl, hw, rfl⟩ |
    ⟨w, task, rfl, hw, rfl⟩
  · simp [spawnWorkers]
  · simp [hadd]
  · simp [hsync]
  · simp [hsync]
  · exact le_refl _
  · simp [hadd]
  · simp [hsync]
  · exact le_refl _
  · exact le_refl _
  · exact hfetch _
  · unfold workerWake
    split
    · exact le_refl _
    · exact hfetch _
  · simp [workerDone]
  · exact le_refl _
  · exact le_refl _

theorem length_claimed_run (acts : List (Action F A)) :
    ∀ d d' : Dispatcher F A, d.run acts = some d' →
      d.claimed.length ≤ d'.claimed.length := by
  induction acts with
  | nil =>
    intro d d' hr
    simp only [run, Option.some.injEq] at hr
    subst hr
    exact le_refl _
  | cons a acts ih =>
    intro d d' hr
    simp only [run, Option.bind_eq_some] at hr
    obtain ⟨d1, h1, h2⟩ := hr
    exact le_trans (length_claimed_step d d1 a h1) (ih d1 d' h2)

theorem inAddTask_set {l : List (ClientPc F A)} {c c' : Nat} {f : F} {x : A}
    {old new : ClientPc F A}
    (hb : l[c]? = some (.addSuspended f x) ∨ l[c]? = some (.addRunnable f x))
    (hold : l[c']? = some old)
    (hnew : old = .addSuspended f x ∨ old = .addRunnable f x →
      new = .addSuspended f x ∨ new = .addRunnable f x) :
    (l.set c' new)[c]? = some (.addSuspended f x) ∨
      (l.set c' new)[c]? = some (.addRunnable f x) := by
  rw [getElem?_set_of_some hold]
  split
  · rename_i hcc
    subst hcc
    rw [hold] at hb
    simp only [Option.some.injEq] at hb
    rcases hnew hb with h | h <;> simp [h]
  · exact hb

/-- From a full queue, a step that pops nothing leaves the queue full, pushes
nothing, and leaves every client that is inside `addTask` inside it. -/
theorem blocked_step {d d' : Dispatcher F A} {a : Action F A} {c : Nat} {f : F}
    {x : A} (hfull : d.buffer.full = true) (hb : d.InAddTask c f x)
    (hs : d.step a = some d') (hcl : d'.claimed.length = d.claimed.length) :
    d'.buffer.full = true ∧ d'.InAddTask c f x ∧ d'.submitted = d.submitted := by
  have hne : d.buffer.empty = false := by
    simp only [RingBuffer.full, beq_iff_eq] at hfull
    simp [RingBuffer.empty, hfull]
  have hadd : ∀ c' f' x', d.addTask c' f' x' =
      { d with clients := d.clients.set c' (ClientPc.addSuspended f' x') } := by
    intro c' f' x'
    simp [addTask, hfull]
  have hfetch : ∀ w, (d.workerFetch w).claimed.length = d.claimed.length + 1 := by
    intro w
    simp [workerFetch, hne]
  unfold InAddTask at hb ⊢
  rcases step_cases hs with ⟨c', n, rfl, hc, rfl⟩ | ⟨c', f', x', rfl, hc, rfl⟩ |
    ⟨c', rfl, hc, rfl⟩ | ⟨c', rfl, hc, rfl⟩ | ⟨c', pc, rfl, hc, hp, rfl⟩ |
    ⟨c', f', x', rfl, hc, rfl⟩ | ⟨c', j, rfl, hc, rfl⟩ | ⟨c', rfl, hc, rfl⟩ |
    ⟨c', rfl, hc, hall, rfl⟩ | ⟨w, rfl, hw, rfl⟩ | ⟨w, t, rfl, hw, rfl⟩ |
    ⟨w, pick, task, rfl, hw, hn, rfl⟩ | ⟨w, task, rfl, hw, rfl⟩ |
    ⟨w, task, rfl, hw, rfl⟩
  · exact ⟨hfull, hb, rfl⟩
  · rw [hadd]
    exact ⟨hfull, inAddTask_set hb hc (by simp), rfl⟩
  · unfold syncWorkers
    split
    · exact ⟨hfull, inAddTask_set hb hc (by simp), rfl⟩
    · exact ⟨hfull, inAddTask_set hb hc (by simp), rfl⟩
  · unfold syncWorkers
    split
    · exact ⟨hfull, inAddTask_set hb hc (by simp), rfl⟩
    · exact ⟨hfull, inAddTask_set hb hc (by simp), rfl⟩
  · refine ⟨hfull, inAddTask_set hb hc ?_, rfl⟩
    intro h
    rcases h with h | h <;> subst h <;> simp [ClientPc.wake]
  · rw [hadd]
    refine ⟨hfull, inAddTask_set hb hc ?_, rfl⟩
    intro h
    rcases h with h | h
    · simp at h
    · simp only [ClientPc.addRunnable.injEq] at h
      simp [h.1, h.2]
  · unfold syncWorkers
    split
    · exact ⟨hfull, inAddTask_set hb hc (by simp), rfl⟩
    · exact ⟨hfull, inAddTask_set hb hc (by simp), rfl⟩
  · exact ⟨hfull, inAddTask_set hb hc (by simp), rfl⟩
  · exact ⟨hfull, inAddTask_set hb hc (by simp), rfl⟩
  · have := hfetch w
    omega
  · unfold workerWake at hcl ⊢
    split
    · exact ⟨hfull, hb, rfl⟩
    · rename_i hcond
      rw [if_neg hcond] at hcl
      have := hfetch w
      omega
  · refine ⟨hfull, ?_, rfl⟩
    show (notifyOne d.clients pick)[c]? = _ ∨ (notifyOne d.clients pick)[c]? = _
    unfold notifyOne
    split
    · rename_i pc hpc
      refine inAddTask_set hb hpc ?_
      intro h
      rcases h with h | h <;> subst h <;> simp [ClientPc.wake]
    · exact hb
  · exact ⟨hfull, hb, rfl⟩
  · exact ⟨hfull, hb, rfl⟩

/-- From a full queue, as long as no worker has popped, nothing has been
pushed and a client that was inside `addTask` is still inside it. -/
theorem blocked_run (acts : List (Action F A)) :
    ∀ (d d' : Dispatcher F A) (c : Nat) (f : F) (x : A), d.buffer.full = true →
      d.InAddTask c f x → d.run acts = some d' →
      d'.claimed.length = d.claimed.length →
      d'.InAddTask c f x ∧ d'.submitted = d.submitted := by
  induction acts with
  | nil =>
    intro d d' c f x _ hb hr _
    simp only [run, Option.some.injEq] at hr
    subst hr
    exact ⟨hb, rfl⟩
  | cons a acts ih =>
    intro d d' c f x hfull hb hr hcl
    simp only [run, Option.bind_eq_some] at hr
    obtain ⟨d1, h1, h2⟩ := hr
    have hle1 := length_claimed_step d d1 a h1
    have hle2 := length_claimed_run acts d1 d' h2
    have hcl1 : d1.claimed.length = d.claimed.length := by omega
    obtain ⟨hf1, hb1, hs1⟩ := blocked_step hfull hb h1 hcl1
    obtain ⟨hb2, hs2⟩ := ih d1 d' c f x hf1 hb1 h2 (by omega)
    exact ⟨hb2, hs2.trans hs1⟩

theorem syncWorkers_shared (d : Dispatcher F A) (c : Nat) (j : Bool) :
    (d.syncWorkers c j).buffer = d.buffer ∧
    (d.syncWorkers c j).numWorking = d.numWorking ∧
    (d.syncWorkers c j).workers = d.workers := by
  unfold syncWorkers
  split <;> exact ⟨rfl, rfl, rfl⟩

/-- A client whose `syncWorkers` step does not end suspended saw its wait
predicate true. -/
theorem syncPredicate_of_return {d : Dispatcher F A} {c : Nat} {j : Bool}
    {old : ClientPc F A} (hc : d.clients[c]? = some old)
    (hpc : (d.syncWorkers c j).clients[c]? ≠ some (ClientPc.syncSuspended j)) :
    d.syncPredicate = true := by
  by_contra hp
  apply hpc
  have hp' : (d.buffer.empty && d.allIdle) = false := by
    simpa [syncPredicate] using hp
  simp only [syncWorkers, hp', Bool.false_eq_true, if_false]
  rw [getElem?_set_of_some hc]
  simp

theorem drained_of_syncPredicate {d : Dispatcher F A} (h : d.Inv)
    (hp : d.syncPredicate = true) :
    d.buffer.empty = true ∧ d.numWorking = 0 ∧ d.inFlight = [] := by
  simp only [syncPredicate, allIdle, Bool.and_eq_true, beq_iff_eq] at hp
  refine ⟨hp.1, hp.2, ?_⟩
  have := h.working
  rw [hp.2] at this
  exact List.length_eq_zero.mp (by exact_mod_cast this.symm)

/-! ## Claims about the dispatcher -/

/-- C3: in every reachable state of the dispatcher every `buffer.push` made so
far was made on a buffer that was not full and every `buffer.pop` on a buffer
that was not empty, the count satisfies `numFull ≤ 8`, and when some client
calls `addTask` on a full queue then, in every later state in which no worker
has popped yet, that call has not completed (the client is still inside
`addTask`) and nothing has been pushed. -/
theorem dispatcher_respects_queue [Inhabited F] [Inhabited A]
    (d : Dispatcher F A) (h : d.Reachable) :
    (∀ q ∈ d.queueCalls, q.respects = true) ∧
    d.buffer.numFull ≤ 8 ∧
    (∀ (c : Nat) (f : F) (x : A) (acts : List (Action F A)) (d1 d' : Dispatcher F A),
      d.buffer.full = true → d.step (.addTask c f x) = some d1 →
      d1.run acts = some d' → d'.claimed.length = d.claimed.length →
      d'.InAddTask c f x ∧ d'.submitted = d.submitted) := by
  have hinv := inv_of_reachable d h
  refine ⟨hinv.calls, hinv.valid.2.2.1, ?_⟩
  intro c f x acts d1 d' hfull hs hr hcl
  simp only [step] at hs
  split at hs
  · rename_i hc
    simp only [Option.some.injEq] at hs
    subst hs
    have hadd : d.addTask c f x =
        { d with clients := d.clients.set c (ClientPc.addSuspended f x) } := by
      simp [addTask, hfull]
    rw [hadd] at hr
    refine blocked_run acts
      { d with clients := d.clients.set c (ClientPc.addSuspended f x) } d' c f x
      hfull ?_ hr hcl
    left
    show (d.clients.set c (ClientPc.addSuspended f x))[c]? = _
    rw [getElem?_set_of_some hc]
    simp
  · simp at hs

theorem dispatcher_respects_queue_witness :
    ∃ d d1 d' : Dispatcher Nat Nat,
      (new 2).run (.spawnWorkers 0 1 :: List.replicate 8 (.addTask 0 7 7)) = some d ∧
      d.buffer.full = true ∧ d.step (.addTask 0 3 4) = some d1 ∧
      d1.run [.spurious 0, .resume 0, .syncWorkers 1] = some d' ∧
      d'.claimed.length = d.claimed.length ∧
      d.buffer.numFull ≤ 8 ∧ d'.InAddTask 0 3 4 := by
  have h0 : ((new 2 : Dispatcher Nat Nat).run
      (.spawnWorkers 0 1 :: List.replicate 8 (.addTask 0 7 7))).isSome = true := rfl
  obtain ⟨d, hd⟩ : ∃ d, d = ((new 2 : Dispatcher Nat Nat).run
      (.spawnWorkers 0 1 :: List.replicate 8 (.addTask 0 7 7))).get h0 := ⟨_, rfl⟩
  have hrun : (new 2 : Dispatcher Nat Nat).run
      (.spawnWorkers 0 1 :: List.replicate 8 (.addTask 0 7 7)) = some d := by
    rw [hd]; exact (Option.some_get h0).symm
  have h1 : (d.step (.addTask 0 3 4)).isSome = true := by rw [hd]; rfl
  have hd1 := (Option.some_get h1).symm
  have h2 : (((d.step (.addTask 0 3 4)).get h1).run
      [.spurious 0, .resume 0, .syncWorkers 1]).isSome = true := by
    subst hd; rfl
  have hd2 := (Option.some_get h2).symm
  have hfull : d.buffer.full = true := by rw [hd]; rfl
  have hlen : ((((d.step (.addTask 0 3 4)).get h1).run
      [.spurious 0, .resume 0, .syncWorkers 1]).get h2).claimed.length
        = d.claimed.length := by
    subst hd; rfl
  have hthm := dispatcher_respects_queue d ⟨2, _, hrun⟩
  exact ⟨d, _, _, hrun, hfull, hd1, hd2, hlen, hthm.2.1,
    (hthm.2.2 0 3 4 _ _ _ hfull hd1 hd2 hlen).1⟩

/-- C4: a step in which `syncWorkers` returns is taken only in a state where
the queue is empty, `numWorking == 0` and no worker holds a task; the step
changes none of this. -/
theorem syncWorkers_returns_drained [Inhabited F] [Inhabited A]
    (d d' : Dispatcher F A) (a : Action F A) (c : Nat) (h : d.Reachable)
    (hret : d.SyncReturn a d' c) :
    (d.buffer.empty = true ∧ d.numWorking = 0 ∧ d.inFlight = []) ∧
    (d'.buffer.empty = true ∧ d'.numWorking = 0 ∧ d'.inFlight = []) := by
  have hinv := inv_of_reachable d h
  obtain ⟨hs, hcase⟩ := hret
  have key : ∀ (e : Dispatcher F A) (j : Bool) (old : ClientPc F A),
      e.buffer = d.buffer → e.numWorking = d.numWorking → e.workers = d.workers →
      e.clients[c]? = some old → d' = e.syncWorkers c j →
      d'.clients[c]? ≠ some (ClientPc.syncSuspended j) →
      (d.buffer.empty = true ∧ d.numWorking = 0 ∧ d.inFlight = []) ∧
      (d'.buffer.empty = true ∧ d'.numWorking = 0 ∧ d'.inFlight = []) := by
    intro e j old hb hn hw hc hd' hpc
    subst hd'
    have hp := syncPredicate_of_return hc hpc
    have hp' : d.syncPredicate = true := by
      simpa [syncPredicate, allIdle, hb, hn] using hp
    have hdr := drained_of_syncPredicate hinv hp'
    obtain ⟨s1, s2, s3⟩ := syncWorkers_shared e c j
    refine ⟨hdr, ?_, ?_, ?_⟩
    · rw [s1, hb]; exact hdr.1
    · rw [s2, hn]; exact hdr.2.1
    · unfold inFlight
      rw [s3, hw]
      exact hdr.2.2
  rcases hcase with ⟨rfl, hpc⟩ | ⟨rfl, hpc⟩ | ⟨rfl, hc, hpc⟩ | ⟨rfl, hc, hpc⟩
  · simp only [step] at hs
    split at hs
    · rename_i hc
      simp only [Option.some.injEq] at hs
      exact key d false _ rfl rfl rfl hc hs.symm (by rw [hpc]; simp)
    · simp at hs
  · simp only [step] at hs
    split at hs
    · rename_i hc
      simp only [Option.some.injEq] at hs
      exact key { d with joinCalled := true } true _ rfl rfl rfl hc hs.symm
        (by rw [hpc]; simp)
    · simp at hs
  · simp only [step, hc, Option.some.injEq] at hs
    exact key d false _ rfl rfl rfl hc hs.symm (by rw [hpc]; simp)
  · simp only [step, hc, Option.some.injEq] at hs
    exact key d true _ rfl rfl rfl hc hs.symm (by rw [hpc]; simp)

theorem syncWorkers_returns_drained_witness :
    ∃ d d' : Dispatcher Nat Nat,
      (new 1).run [.spawnWorkers 0 2, .addTask 0 1 10, .workerLock 0,
        .syncWorkers 0, .workerCall 0, .workerDone 0 0] = some d ∧
      d.SyncReturn (.resume 0) d' 0 ∧ d.numWorking = 0 ∧ d'.inFlight = [] := by
  have h0 : ((new 1 : Dispatcher Nat Nat).run [.spawnWorkers 0 2, .addTask 0 1 10,
      .workerLock 0, .syncWorkers 0, .workerCall 0, .workerDone 0 0]).isSome = true := rfl
  have hd := (Option.some_get h0).symm
  have h1 : ((((new 1 : Dispatcher Nat Nat).run [.spawnWorkers 0 2, .addTask 0 1 10,
      .workerLock 0, .syncWorkers 0, .workerCall 0, .workerDone 0 0]).get h0).step
        (.resume 0)).isSome = true := rfl
  have hd1 := (Option.some_get h1).symm
  have hret : (((new 1 : Dispatcher Nat Nat).run [.spawnWorkers 0 2, .addTask 0 1 10,
      .workerLock 0, .syncWorkers 0, .workerCall 0, .workerDone 0 0]).get h0).SyncReturn
        (.resume 0) _ 0 :=
    ⟨hd1, Or.inr (Or.inr (Or.inl ⟨rfl, rfl, rfl⟩))⟩
  have hthm := syncWorkers_returns_drained _ _ _ 0 ⟨1, _, hd⟩ hret
  exact ⟨_, _, hd, hret, hthm.1.2.1, hthm.2.2.2⟩

/-- C5: in every reachable state the pushed tasks are, as a multiset, the
finished tasks plus the tasks in flight plus the queued tasks; hence in every
state where `syncWorkers` can return (`buffer.empty() && numWorking == 0`)
nothing is queued or in flight and the finished tasks are exactly the pushed
tasks, each as often as it was pushed. -/
theorem submitted_eq_finished_inFlight_queued [Inhabited F] [Inhabited A]
    (d : Dispatcher F A) (h : d.Reachable) :
    (d.submitted.map Prod.snd).Perm (d.finished ++ d.inFlight ++ d.buffer.toList) ∧
    (d.syncPredicate = true →
      d.buffer.toList = [] ∧ d.inFlight = [] ∧
      (d.submitted.map Prod.snd).Perm d.finished) := by
  have hinv := inv_of_reachable d h
  refine ⟨hinv.conserve, ?_⟩
  intro hp
  obtain ⟨he, _, hi⟩ := drained_of_syncPredicate hinv hp
  have hl : d.buffer.toList = [] := by
    apply List.length_eq_zero.mp
    rw [RingBuffer.length_toList]
    simpa [RingBuffer.empty] using he
  refine ⟨hl, hi, ?_⟩
  have := hinv.conserve
  rwa [hl, hi, List.append_nil, List.append_nil] at this

theorem submitted_eq_finished_inFlight_queued_witness :
    ∃ d : Dispatcher Nat Nat,
      (new 1).run [.spawnWorkers 0 2, .addTask 0 1 10, .addTask 0 2 20,
        .workerLock 0, .workerLock 1, .workerCall 1, .workerDone 1 0, .workerCall 0, .workerDone 0 0] = some d ∧
      d.syncPredicate = true ∧ d.finished = [⟨2, 20⟩, ⟨1, 10⟩] ∧
      (d.submitted.map Prod.snd).Perm d.finished := by
  have h0 : ((new 1 : Dispatcher Nat Nat).run [.spawnWorkers 0 2, .addTask 0 1 10,
      .addTask 0 2 20, .workerLock 0, .workerLock 1, .workerCall 1, .workerDone 1 0,
      .workerCall 0, .workerDone 0 0]).isSome = true := rfl
  have hd := (Option.some_get h0).symm
  have hthm := submitted_eq_finished_inFlight_queued _ ⟨1, _, hd⟩
  exact ⟨_, hd, rfl, rfl, (hthm.2 rfl).2.2⟩

/-! ## Job calls -/

theorem singleton_of_getElem? {α : Type} {l : List α} {i : Nat} {x : α}
    (hl : l.length ≤ 1) (h : l[i]? = some x) : l = [x] ∧ i = 0 := by
  cases l with
  | nil => simp at h
  | cons a t =>
    cases t with
    | nil =>
      cases i with
      | zero =>
        simp only [List.getElem?_cons_zero, Option.some.injEq] at h
        exact ⟨by rw [h], rfl⟩
      | succ k => simp at h
    | cons b t => simp at hl

theorem callInv_new [Inhabited F] [Inhabited A] (n : Nat) :
    (new n : Dispatcher F A).CallInv := by
  refine ⟨?_, fun _ => ?_⟩ <;> simp [new, pending]

theorem callInv_congr {d d' : Dispatcher F A} (h : d.CallInv)
    (hc : d'.claimed = d.claimed) (hs : d'.started = d.started)
    (hp : d'.pending = d.pending)
    (hl : d'.workers.length ≤ 1 → d.workers.length ≤ 1) : d'.CallInv :=
  ⟨by rw [hc, hs, hp]; exact h.called,
   fun h1 => by rw [hc, hs, hp]; exact h.single (hl h1)⟩

theorem callInv_workerFetch {d : Dispatcher F A} (w : Nat) (pc : WorkerPc F A)
    (hw : d.workers[w]? = some pc) (hpc : pc.pending? = none) (h : d.CallInv) :
    (d.workerFetch w).CallInv := by
  unfold workerFetch
  split
  · refine callInv_congr h rfl rfl ?_ (fun hl => by simpa using hl)
    exact filterMap_set_same WorkerPc.pending? WorkerPc.waiting _ _ _ hw hpc
  · have hp : ((d.workers.set w (WorkerPc.working d.buffer.pop.1)).filterMap
        WorkerPc.pending?).Perm (d.buffer.pop.1 :: d.pending) :=
      filterMap_set_insert WorkerPc.pending? (WorkerPc.working d.buffer.pop.1) _ rfl
        _ _ _ hw hpc
    have hsingle : d.workers.length ≤ 1 →
        (d.workers.set w (WorkerPc.working d.buffer.pop.1)).filterMap WorkerPc.pending?
          = [d.buffer.pop.1] ∧ d.pending = [] := by
      intro hl
      obtain ⟨hws, hw0⟩ := singleton_of_getElem? hl hw
      unfold pending
      rw [hws, hw0]
      have e : WorkerPc.pending? (WorkerPc.working d.buffer.pop.1) = some d.buffer.pop.1 :=
        rfl
      simp [hpc, e]
    generalize d.buffer.pop.1 = x at hp hsingle
    generalize d.buffer.pop.2 = b'
    refine ⟨?_, ?_⟩
    · show (d.claimed ++ [x]).Perm
        (d.started ++ (d.workers.set w (WorkerPc.working x)).filterMap WorkerPc.pending?)
      refine List.Perm.trans ?_ (hp.symm.append_left d.started)
      refine (h.called.append_right [x]).trans ?_
      rw [List.append_assoc]
      refine List.Perm.append_left _ ?_
      exact List.perm_append_singleton x d.pending
    · intro hl
      have hl' : d.workers.length ≤ 1 := by simpa using hl
      obtain ⟨h1, h2⟩ := hsingle hl'
      show d.claimed ++ [x] =
        d.started ++ (d.workers.set w (WorkerPc.working x)).filterMap WorkerPc.pending?
      rw [h1, h.single hl', h2, List.append_nil]

theorem callInv_workerCall {d : Dispatcher F A} (w : Nat) (task : task_t F A)
    (hw : d.workers[w]? = some (WorkerPc.working task)) (h : d.CallInv) :
    (d.workerCall w task).CallInv := by
  have hp : d.pending.Perm
      (task :: (d.workers.set w (WorkerPc.running task)).filterMap WorkerPc.pending?) :=
    filterMap_set_remove WorkerPc.pending? (WorkerPc.running task) rfl _ _ _ _ hw rfl
  refine ⟨?_, ?_⟩
  · show d.claimed.Perm (d.started ++ [task] ++
      (d.workers.set w (WorkerPc.running task)).filterMap WorkerPc.pending?)
    refine h.called.trans ?_
    rw [List.append_assoc]
    exact hp.append_left d.started
  · intro hl
    have hl' : d.workers.length ≤ 1 := by
      have : (d.workers.set w (WorkerPc.running task)).length ≤ 1 := hl
      simpa using this
    obtain ⟨hws, hw0⟩ := singleton_of_getElem? hl' hw
    have h1 := h.single hl'
    show d.claimed = d.started ++ [task] ++
      (d.workers.set w (WorkerPc.running task)).filterMap WorkerPc.pending?
    rw [h1]
    unfold pending
    rw [hws, hw0]
    simp [WorkerPc.pending?]

theorem callInv_step {d d' : Dispatcher F A} {a : Action F A} (h : d.CallInv)
    (hs : d.step a = some d') : d'.CallInv := by
  rcases step_cases hs with ⟨c, n, rfl, hc, rfl⟩ | ⟨c, f, x, rfl, hc, rfl⟩ |
    ⟨c, rfl, hc, rfl⟩ | ⟨c, rfl, hc, rfl⟩ | ⟨c, pc, rfl, hc, hp, rfl⟩ |
    ⟨c, f, x, rfl, hc, rfl⟩ | ⟨c, j, rfl, hc, rfl⟩ | ⟨c, rfl, hc, rfl⟩ |
    ⟨c, rfl, hc, hall, rfl⟩ | ⟨w, rfl, hw, rfl⟩ | ⟨w, t, rfl, hw, rfl⟩ |
    ⟨w, pick, task, rfl, hw, hn, rfl⟩ | ⟨w, task, rfl, hw, rfl⟩ |
    ⟨w, task, rfl, hw, rfl⟩
  · refine callInv_congr h rfl rfl ?_ ?_
    · simp [spawnWorkers, pending, List.filterMap_append, WorkerPc.pending?]
    · intro hl
      simp only [spawnWorkers, List.length_append] at hl
      omega
  · unfold addTask
    split <;> exact callInv_congr h rfl rfl rfl id
  · unfold syncWorkers
    split <;> exact callInv_congr h rfl rfl rfl id
  · unfold syncWorkers
    split <;> exact callInv_congr h rfl rfl rfl id
  · exact callInv_congr h rfl rfl rfl id
  · unfold addTask
    split <;> exact callInv_congr h rfl rfl rfl id
  · unfold syncWorkers
    split <;> exact callInv_congr h rfl rfl rfl id
  · exact callInv_congr h rfl rfl rfl id
  · exact callInv_congr h rfl rfl rfl id
  · exact callInv_workerFetch w _ hw rfl h
  · unfold workerWake
    split
    · refine callInv_congr h rfl rfl ?_ (fun hl => by simpa using hl)
      exact filterMap_set_same WorkerPc.pending? WorkerPc.exited _ _ _ hw rfl
    · exact callInv_workerFetch w _ hw rfl h
  · refine callInv_congr h rfl rfl ?_ (fun hl => by simpa [workerDone] using hl)
    exact filterMap_set_same WorkerPc.pending? WorkerPc.start _ _ _ hw rfl
  · exact callInv_workerCall w task hw h
  · refine callInv_congr h rfl rfl ?_ (fun hl => by simpa [workerThrow] using hl)
    exact filterMap_set_same WorkerPc.pending? (WorkerPc.aborted task) _ _ _ hw rfl

theorem callInv_run (acts : List (Action F A)) :
    ∀ d d' : Dispatcher F A, d.CallInv → d.run acts = some d' → d'.CallInv := by
  induction acts with
  | nil =>
    intro d d' h hr
    simp only [run, Option.some.injEq] at hr
    subst hr
    exact h
  | cons a acts ih =>
    intro d d' h hr
    simp only [run, Option.bind_eq_some] at hr
    obtain ⟨d1, h1, h2⟩ := hr
    exact ih d1 d' (callInv_step h h1) h2

/-- C6 (as stated, refuted): one producer pushes two tasks and two workers
pop them in that order; the worker that popped the second task calls its job
first. The jobs of that producer have then started in the order second,
first, which is not the order in which they were submitted. -/
theorem job_calls_out_of_order :
    ¬ ∀ d : Dispatcher Nat Nat, d.Reachable → (∀ s ∈ d.submitted, s.1 = 0) →
        d.started.Sublist (d.submitted.map Prod.snd) := by
  intro hall
  have h0 : ((new 1 : Dispatcher Nat Nat).run [.spawnWorkers 0 2, .addTask 0 1 10,
      .addTask 0 2 20, .workerLock 0, .workerLock 1, .workerCall 1,
      .workerCall 0]).isSome = true := rfl
  have hd := (Option.some_get h0).symm
  have hsub := hall _ ⟨1, _, hd⟩ (by
    rw [show (((new 1 : Dispatcher Nat Nat).run [.spawnWorkers 0 2, .addTask 0 1 10,
      .addTask 0 2 20, .workerLock 0, .workerLock 1, .workerCall 1,
      .workerCall 0]).get h0).submitted = [(0, ⟨1, 10⟩), (0, ⟨2, 20⟩)] from rfl]
    decide)
  rw [show (((new 1 : Dispatcher Nat Nat).run [.spawnWorkers 0 2, .addTask 0 1 10,
      .addTask 0 2 20, .workerLock 0, .workerLock 1, .workerCall 1,
      .workerCall 0]).get h0).started = [⟨2, 20⟩, ⟨1, 10⟩] from rfl,
    show (((new 1 : Dispatcher Nat Nat).run [.spawnWorkers 0 2, .addTask 0 1 10,
      .addTask 0 2 20, .workerLock 0, .workerLock 1, .workerCall 1,
      .workerCall 0]).get h0).submitted = [(0, ⟨1, 10⟩), (0, ⟨2, 20⟩)] from rfl] at hsub
  revert hsub
  decide

/-- C6 (amended): in every reachable state the tasks popped by workers, in
pop order, are an initial segment of the tasks pushed by `addTask`, in push
order (the rest of the pushed tasks being the queue content), so the tasks of
one producer are popped in the order that producer pushed them, each task
being the `{function, args}` pair that was pushed. The jobs that have been
called are jobs of popped tasks (the popped tasks are, as a multiset, the
called ones plus those a worker holds and has not called yet); the order of
the calls is the order of submission as long as there is at most one worker. -/
theorem claimed_prefix_of_submitted [Inhabited F] [Inhabited A]
    (d : Dispatcher F A) (h : d.Reachable) :
    d.submitted.map Prod.snd = d.claimed ++ d.buffer.toList ∧
    d.claimed = (d.submitted.take d.claimed.length).map Prod.snd ∧
    (∀ p : Nat,
      (((d.submitted.take d.claimed.length).filter (fun s => s.1 == p)).map Prod.snd)
        <+: ((d.submitted.filter (fun s => s.1 == p)).map Prod.snd)) ∧
    d.claimed.Perm (d.started ++ d.pending) ∧
    (d.workers.length ≤ 1 → d.started <+: d.submitted.map Prod.snd) := by
  obtain ⟨n, acts, hr⟩ := h
  have hinv := inv_run acts _ d (inv_new n) hr
  have hcall := callInv_run acts _ d (callInv_new n) hr
  refine ⟨hinv.fifo, ?_, ?_, hcall.called, ?_⟩
  · rw [List.map_take, hinv.fifo]
    simp
  · intro p
    exact ((List.take_prefix _ _).filter _).map _
  · intro hl
    rw [hinv.fifo, hcall.single hl, List.append_assoc]
    exact List.prefix_append _ _

theorem claimed_prefix_of_submitted_witness :
    ∃ d : Dispatcher Nat Nat,
      (new 2).run [.spawnWorkers 0 1, .addTask 0 1 10, .addTask 1 2 20,
        .addTask 0 3 30, .workerLock 0, .workerCall 0, .workerDone 0 0,
        .workerLock 0, .workerCall 0] = some d ∧
      d.workers.length ≤ 1 ∧ d.claimed = [⟨1, 10⟩, ⟨2, 20⟩] ∧
      d.started = [⟨1, 10⟩, ⟨2, 20⟩] ∧
      d.submitted.map Prod.snd = d.claimed ++ d.buffer.toList ∧
      d.started <+: d.submitted.map Prod.snd := by
  have h0 : ((new 2 : Dispatcher Nat Nat).run [.spawnWorkers 0 1, .addTask 0 1 10,
      .addTask 1 2 20, .addTask 0 3 30, .workerLock 0, .workerCall 0, .workerDone 0 0,
      .workerLock 0, .workerCall 0]).isSome = true := rfl
  have hd := (Option.some_get h0).symm
  have hthm := claimed_prefix_of_submitted _ ⟨2, _, hd⟩
  exact ⟨_, hd, Nat.le_of_eq rfl, rfl, rfl, hthm.1, hthm.2.2.2.2 (Nat.le_of_eq rfl)⟩

/-! ## No submission at all -/

theorem quiet_new [Inhabited F] [Inhabited A] (n : Nat) :
    (new n : Dispatcher F A).Quiet := by
  refine ⟨rfl, rfl, rfl, ?_⟩
  intro pc hpc
  simp only [new, List.mem_replicate] at hpc
  rw [hpc.2]
  rfl

theorem quiet_clients {d d' : Dispatcher F A} (h : d.Quiet)
    (hb : d'.buffer = d.buffer) (hn : d'.numWorking = d.numWorking)
    (hi : d'.inFlight = d.inFlight)
    (hc : ∀ pc ∈ d'.clients, pc ∈ d.clients ∨ pc.inAddTask = false) : d'.Quiet := by
  obtain ⟨h1, h2, h3, h4⟩ := h
  refine ⟨by rw [hb]; exact h1, by rw [hn]; exact h2, by rw [hi]; exact h3, ?_⟩
  intro pc hpc
  rcases hc pc hpc with h | h
  · exact h4 pc h
  · exact h

theorem mem_set_cases {α : Type} {l : List α} {i : Nat} {x : α} (P : α → Prop)
    (hx : P x) : ∀ y ∈ l.set i x, y ∈ l ∨ P y := by
  intro y hy
  rcases List.mem_or_eq_of_mem_set hy with h | h
  · exact Or.inl h
  · exact Or.inr (h ▸ hx)

theorem wake_inAddTask (pc : ClientPc F A) : pc.wake.inAddTask = pc.inAddTask := by
  cases pc <;> rfl

theorem quiet_syncWorkers {d : Dispatcher F A} (c : Nat) (j : Bool) (h : d.Quiet) :
    (d.syncWorkers c j).Quiet := by
  unfold syncWorkers
  split
  · refine quiet_clients h rfl rfl rfl (mem_set_cases _ ?_)
    cases j <;> rfl
  · exact quiet_clients h rfl rfl rfl (mem_set_cases _ rfl)

theorem quiet_workerFetch {d : Dispatcher F A} (w : Nat) (pc : WorkerPc F A)
    (hw : d.workers[w]? = some pc) (hpc : pc.task? = none) (h : d.Quiet) :
    (d.workerFetch w).Quiet := by
  have he : d.buffer.empty = true := by simp [RingBuffer.empty, h.1]
  simp only [workerFetch, he, if_true]
  refine quiet_clients h rfl rfl ?_ (fun pc hpc => Or.inl hpc)
  exact filterMap_set_of_none WorkerPc.task? WorkerPc.waiting rfl _ _ _ hw hpc

theorem quiet_step {d d' : Dispatcher F A} {a : Action F A} (h : d.Quiet)
    (ha : a.isAddTask = false) (hs : d.step a = some d') : d'.Quiet := by
  rcases step_cases hs with ⟨c, n, rfl, hc, rfl⟩ | ⟨c, f, x, rfl, hc, rfl⟩ |
    ⟨c, rfl, hc, rfl⟩ | ⟨c, rfl, hc, rfl⟩ | ⟨c, pc, rfl, hc, hp, rfl⟩ |
    ⟨c, f, x, rfl, hc, rfl⟩ | ⟨c, j, rfl, hc, rfl⟩ | ⟨c, rfl, hc, rfl⟩ |
    ⟨c, rfl, hc, hall, rfl⟩ | ⟨w, rfl, hw, rfl⟩ | ⟨w, t, rfl, hw, rfl⟩ |
    ⟨w, pick, task, rfl, hw, hn, rfl⟩ | ⟨w, task, rfl, hw, rfl⟩ |
    ⟨w, task, rfl, hw, rfl⟩
  · refine quiet_clients h rfl rfl ?_ (fun pc hpc => Or.inl hpc)
    simp [spawnWorkers, inFlight, List.filterMap_append, WorkerPc.task?]
  · simp [Action.isAddTask] at ha
  · exact quiet_syncWorkers c false h
  · exact quiet_syncWorkers c true (quiet_clients h rfl rfl rfl (fun pc hpc => Or.inl hpc))
  · refine quiet_clients h rfl rfl rfl (mem_set_cases _ ?_)
    rw [wake_inAddTask]
    exact h.2.2.2 pc (List.getElem?_mem hc)
  · have := h.2.2.2 _ (List.getElem?_mem hc)
    simp [ClientPc.inAddTask] at this
  · exact quiet_syncWorkers c j h
  · exact quiet_clients h rfl rfl rfl (mem_set_cases _ rfl)
  · exact quiet_clients h rfl rfl rfl (mem_set_cases _ rfl)
  · exact quiet_workerFetch w _ hw rfl h
  · unfold workerWake
    split
    · refine quiet_clients h rfl rfl ?_ (fun pc hpc => Or.inl hpc)
      exact filterMap_set_of_none WorkerPc.task? WorkerPc.exited rfl _ _ _ hw rfl
    · exact quiet_workerFetch w _ hw rfl h
  · have hmem : task ∈ d.inFlight :=
      List.mem_filterMap.mpr ⟨_, List.getElem?_mem hw, rfl⟩
    rw [h.2.2.1] at hmem
    simp at hmem
  · have hmem : task ∈ d.inFlight :=
      List.mem_filterMap.mpr ⟨_, List.getElem?_mem hw, rfl⟩
    rw [h.2.2.1] at hmem
    simp at hmem
  · have hmem : task ∈ d.inFlight :=
      List.mem_filterMap.mpr ⟨_, List.getElem?_mem hw, rfl⟩
    rw [h.2.2.1] at hmem
    simp at hmem

theorem quiet_run (acts : List (Action F A)) :
    ∀ d d' : Dispatcher F A, d.Quiet → (∀ a ∈ acts, a.isAddTask = false) →
      d.run acts = some d' → d'.Quiet := by
  induction acts with
  | nil =>
    intro d d' h _ hr
    simp only [run, Option.some.injEq] at hr
    subst hr
    exact h
  | cons a acts ih =>
    intro d d' h hall hr
    simp only [run, Option.bind_eq_some] at hr
    obtain ⟨d1, h1, h2⟩ := hr
    exact ih d1 d' (quiet_step h (hall a (List.mem_cons_self _ _)) h1)
      (fun b hb => hall b (List.mem_cons_of_mem _ hb)) h2

/-- C8: in every state reached from a fresh dispatcher by steps none of which
is an `addTask` call (any number of clients, spawned workers and worker
wake-ups), the wait predicate of `syncWorkers` is true, and a `syncWorkers`
call made there returns in that same step, without suspending. -/
theorem syncWorkers_immediate_without_tasks [Inhabited F] [Inhabited A]
    (n : Nat) (acts : List (Action F A)) (d : Dispatcher F A)
    (hr : (new n).run acts = some d) (hno : ∀ a ∈ acts, a.isAddTask = false) :
    d.syncPredicate = true ∧
    ∀ c, d.clients[c]? = some ClientPc.idle →
      ∃ d', d.step (.syncWorkers c) = some d' ∧ d'.clients[c]? = some ClientPc.idle := by
  have hq := quiet_run acts _ d (quiet_new n) hno hr
  have hp : d.syncPredicate = true := by
    simp [syncPredicate, allIdle, RingBuffer.empty, hq.1, hq.2.1]
  refine ⟨hp, ?_⟩
  intro c hc
  refine ⟨d.syncWorkers c false, by simp [step, hc], ?_⟩
  have hp' : (d.buffer.empty && d.allIdle) = true := hp
  simp only [syncWorkers, hp', if_true]
  rw [getElem?_set_of_some hc]
  simp

theorem syncWorkers_immediate_without_tasks_witness :
    ∃ d d' : Dispatcher Nat Nat,
      (new 1).run [.spawnWorkers 0 2, .workerLock 1, .workerWake 1 true,
        .workerLock 0] = some d ∧
      d.syncPredicate = true ∧ d.step (.syncWorkers 0) = some d' ∧
      d'.clients[0]? = some ClientPc.idle := by
  have hr : ((new 1 : Dispatcher Nat Nat).run [.spawnWorkers 0 2, .workerLock 1,
      .workerWake 1 true, .workerLock 0]).isSome = true := rfl
  have hd := (Option.some_get hr).symm
  have hthm := syncWorkers_immediate_without_tasks 1 _ _ hd (by decide)
  obtain ⟨d', h1, h2⟩ := hthm.2 0 rfl
  exact ⟨_, d', hd, hthm.1, h1, h2⟩

/-! ## Shutdown -/

theorem shutdownInv_new [Inhabited F] [Inhabited A] (n : Nat) :
    (new n : Dispatcher F A).ShutdownInv := by
  refine ⟨?_, ?_, ?_, ?_⟩
  · intro h; simp [new] at h
  · intro pc hpc hj
    simp only [new, List.mem_replicate] at hpc
    rw [hpc.2] at hj
    simp [ClientPc.inJoin] at hj
  · intro h; simp [new] at h
  · intro h
    simp only [new, List.mem_replicate] at h
    simp at h

/-- A step that only moves clients, to control points that are consistent
with the shared state, keeps the shutdown invariant. -/
theorem shutdownInv_clients {d d' : Dispatcher F A} (h : d.ShutdownInv)
    (hf : d'.finish = d.finish) (hj : d'.joinCalled = d.joinCalled)
    (hb : d'.buffer = d.buffer) (hn : d'.numWorking = d.numWorking)
    (hc : ∀ pc ∈ d'.clients, pc ∈ d.clients ∨
      ((pc.inJoin = true → d.joinCalled = true) ∧
        (d.joinCalled = true → pc.inAddTask = false) ∧
        (pc = ClientPc.joinLocking → d.Drained))) : d'.ShutdownInv := by
  obtain ⟨h1, h2, h3, h4⟩ := h
  have hdr : d.Drained → d'.Drained := by
    intro hd
    exact ⟨by rw [hb]; exact hd.1, by rw [hn]; exact hd.2⟩
  refine ⟨?_, ?_, ?_, ?_⟩
  · intro hfin
    rw [hf] at hfin
    rw [hj]
    exact ⟨(h1 hfin).1, hdr (h1 hfin).2⟩
  · intro pc hpc hjoin
    rw [hj]
    rcases hc pc hpc with h | h
    · exact h2 pc h hjoin
    · exact h.1 hjoin
  · intro hjc pc hpc
    rw [hj] at hjc
    rcases hc pc hpc with h | h
    · exact h3 hjc pc h
    · exact h.2.1 hjc
  · intro hmem
    rcases hc _ hmem with h | h
    · exact hdr (h4 h)
    · exact hdr (h.2.2 rfl)

theorem wake_inJoin (pc : ClientPc F A) : pc.wake.inJoin = pc.inJoin := by
  cases pc <;> rfl

theorem wake_ne_joinLocking (pc : ClientPc F A) (h : pc.wake = ClientPc.joinLocking) :
    pc = ClientPc.joinLocking := by
  cases pc <;> simp [ClientPc.wake] at h ⊢

theorem shutdownInv_syncWorkers {d : Dispatcher F A} (c : Nat) (j : Bool)
    (h : d.ShutdownInv) (hj : j = true → d.joinCalled = true) :
    (d.syncWorkers c j).ShutdownInv := by
  unfold syncWorkers
  split
  · rename_i hp
    simp only [allIdle, Bool.and_eq_true, beq_iff_eq, RingBuffer.empty] at hp
    refine shutdownInv_clients h rfl rfl rfl rfl (mem_set_cases _ ?_)
    cases j
    · simp [ClientPc.inJoin, ClientPc.inAddTask]
    · simp [ClientPc.inJoin, ClientPc.inAddTask, hj rfl, Drained, hp.1, hp.2]
  · refine shutdownInv_clients h rfl rfl rfl rfl (mem_set_cases _ ?_)
    refine ⟨?_, fun _ => rfl, by simp⟩
    intro hjoin
    exact hj hjoin

theorem shutdownInv_addTask {d : Dispatcher F A} (c : Nat) (f : F) (x : A)
    (h : d.ShutdownInv) (hj : d.joinCalled = false) :
    (d.addTask c f x).ShutdownInv := by
  obtain ⟨h1, h2, h3, h4⟩ := h
  have hfin : d.finish = false := by
    cases hf : d.finish
    · rfl
    · rw [(h1 hf).1] at hj; simp at hj
  have hnj : ∀ pc ∈ d.clients, pc.inJoin = false := by
    intro pc hpc
    cases hpj : pc.inJoin
    · rfl
    · rw [h2 pc hpc hpj] at hj; simp at hj
  have hmem : ∀ (new : ClientPc F A), new.inJoin = false →
      ∀ pc ∈ d.clients.set c new, pc.inJoin = false := by
    intro new hnew pc hpc
    rcases List.mem_or_eq_of_mem_set hpc with h | h
    · exact hnj pc h
    · rw [h]; exact hnew
  have hgen : ∀ d' : Dispatcher F A, d'.finish = false → d'.joinCalled = false →
      (∀ pc ∈ d'.clients, pc.inJoin = false) → d'.ShutdownInv := by
    intro d' hf' hj' hc'
    refine ⟨?_, ?_, ?_, ?_⟩
    · intro h; rw [hf'] at h; simp at h
    · intro pc hpc hjoin; rw [hc' pc hpc] at hjoin; simp at hjoin
    · intro h; rw [hj'] at h; simp at h
    · intro hmem'
      have := hc' _ hmem'
      simp [ClientPc.inJoin] at this
  unfold addTask
  split
  · exact hgen _ hfin hj (hmem _ rfl)
  · exact hgen _ hfin hj (hmem _ rfl)

theorem shutdownInv_workerFetch {d : Dispatcher F A} (w : Nat) (h : d.ShutdownInv) :
    (d.workerFetch w).ShutdownInv := by
  unfold workerFetch
  split
  · exact shutdownInv_clients h rfl rfl rfl rfl (fun pc hpc => Or.inl hpc)
  · rename_i he
    have hne : d.buffer.numFull ≠ 0 := by simpa [RingBuffer.empty] using he
    obtain ⟨h1, h2, h3, h4⟩ := h
    refine ⟨?_, h2, h3, ?_⟩
    · intro hfin
      exact absurd (h1 hfin).2.1 hne
    · intro hmem
      exact absurd (h4 hmem).1 hne

theorem shutdownInv_step {d d' : Dispatcher F A} {a : Action F A} (hinv : d.Inv)
    (h : d.ShutdownInv) (ha : d.submitsBeforeJoin a = true)
    (hs : d.step a = some d') : d'.ShutdownInv := by
  rcases step_cases hs with ⟨c, n, rfl, hc, rfl⟩ | ⟨c, f, x, rfl, hc, rfl⟩ |
    ⟨c, rfl, hc, rfl⟩ | ⟨c, rfl, hc, rfl⟩ | ⟨c, pc, rfl, hc, hp, rfl⟩ |
    ⟨c, f, x, rfl, hc, rfl⟩ | ⟨c, j, rfl, hc, rfl⟩ | ⟨c, rfl, hc, rfl⟩ |
    ⟨c, rfl, hc, hall, rfl⟩ | ⟨w, rfl, hw, rfl⟩ | ⟨w, t, rfl, hw, rfl⟩ |
    ⟨w, pick, task, rfl, hw, hn, rfl⟩ | ⟨w, task, rfl, hw, rfl⟩ |
    ⟨w, task, rfl, hw, rfl⟩
  · exact shutdownInv_clients h rfl rfl rfl rfl (fun pc hpc => Or.inl hpc)
  · exact shutdownInv_addTask c f x h (by simpa [submitsBeforeJoin] using ha)
  · exact shutdownInv_syncWorkers c false h (by simp)
  · refine shutdownInv_syncWorkers c true ?_ (fun _ => rfl)
    simp only [submitsBeforeJoin, List.all_eq_true, Bool.not_eq_true',] at ha
    obtain ⟨h1, h2, h3, h4⟩ := h
    exact ⟨fun hf => ⟨rfl, (h1 hf).2⟩, fun _ _ _ => rfl, fun _ pc hpc => ha pc hpc, h4⟩
  · have hmem := List.getElem?_mem hc
    refine shutdownInv_clients h rfl rfl rfl rfl ?_
    intro q hq
    rcases List.mem_or_eq_of_mem_set hq with hq | hq
    · exact Or.inl hq
    · subst hq
      refine Or.inr ⟨?_, ?_, ?_⟩
      · rw [wake_inJoin]
        exact h.join _ hmem
      · rw [wake_inAddTask]
        exact fun hjc => h.noAdd hjc _ hmem
      · intro hw
        have := wake_ne_joinLocking pc hw
        subst this
        exact h.locking hmem
  · have hmem := List.getElem?_mem hc
    refine shutdownInv_addTask c f x h ?_
    cases hjc : d.joinCalled
    · rfl
    · have := h.noAdd hjc _ hmem
      simp [ClientPc.inAddTask] at this
  · have hmem := List.getElem?_mem hc
    exact shutdownInv_syncWorkers c j h (fun hj => h.join _ hmem (by simpa [ClientPc.inJoin] using hj))
  · have hmem := List.getElem?_mem hc
    have hjc := h.join _ hmem rfl
    have hdr := h.locking hmem
    obtain ⟨h1, h2, h3, h4⟩ := h
    refine ⟨fun _ => ⟨hjc, hdr⟩, ?_, ?_, fun _ => hdr⟩
    · intro pc hpc _
      exact hjc
    · intro _ pc hpc
      rcases List.mem_or_eq_of_mem_set hpc with hq | hq
      · exact h3 hjc pc hq
      · rw [hq]; rfl
  · have hmem := List.getElem?_mem hc
    exact shutdownInv_clients h rfl rfl rfl rfl (mem_set_cases _ (by simp [ClientPc.inJoin, ClientPc.inAddTask]))
  · exact shutdownInv_workerFetch w h
  · unfold workerWake
    split
    · exact shutdownInv_clients h rfl rfl rfl rfl (fun pc hpc => Or.inl hpc)
    · exact shutdownInv_workerFetch w h
  · have hmemt : task ∈ d.inFlight :=
      List.mem_filterMap.mpr ⟨_, List.getElem?_mem hw, rfl⟩
    have hpos : d.numWorking ≠ 0 := by
      intro h0
      have := hinv.working
      rw [h0] at this
      have hnil : d.inFlight = [] := List.length_eq_zero.mp (by exact_mod_cast this.symm)
      rw [hnil] at hmemt
      simp at hmemt
    have hcl : ∀ pc ∈ notifyOne d.clients pick, ∃ q ∈ d.clients, pc = q ∨ pc = q.wake := by
      intro pc hpc
      unfold notifyOne at hpc
      split at hpc
      · rename_i q hq
        rcases List.mem_or_eq_of_mem_set hpc with h' | h'
        · exact ⟨pc, h', Or.inl rfl⟩
        · exact ⟨q, List.getElem?_mem hq, Or.inr h'⟩
      · exact ⟨pc, hpc, Or.inl rfl⟩
    obtain ⟨h1, h2, h3, h4⟩ := h
    refine ⟨?_, ?_, ?_, ?_⟩
    · intro hfin
      exact absurd (h1 hfin).2.2 hpos
    · intro pc hpc hjoin
      obtain ⟨q, hq, hpq | hpq⟩ := hcl pc hpc
      · subst hpq; exact h2 _ hq hjoin
      · subst hpq; rw [wake_inJoin] at hjoin; exact h2 _ hq hjoin
    · intro hjc pc hpc
      obtain ⟨q, hq, hpq | hpq⟩ := hcl pc hpc
      · subst hpq; exact h3 hjc _ hq
      · subst hpq; rw [wake_inAddTask]; exact h3 hjc _ hq
    · intro hmem
      obtain ⟨q, hq, hpq | hpq⟩ := hcl _ hmem
      · subst hpq; exact absurd (h4 hq).2 hpos
      · have := wake_ne_joinLocking q hpq.symm
        subst this
        exact absurd (h4 hq).2 hpos
  · exact shutdownInv_clients h rfl rfl rfl rfl (fun pc hpc => Or.inl hpc)
  · exact shutdownInv_clients h rfl rfl rfl rfl (fun pc hpc => Or.inl hpc)

theorem shutdownInv_run (acts : List (Action F A)) :
    ∀ d d' : Dispatcher F A, d.Inv → d.ShutdownInv →
      d.runDisciplined acts = some d' → d'.Inv ∧ d'.ShutdownInv := by
  induction acts with
  | nil =>
    intro d d' h1 h2 hr
    simp only [runDisciplined, Option.some.injEq] at hr
    subst hr
    exact ⟨h1, h2⟩
  | cons a acts ih =>
    intro d d' h1 h2 hr
    unfold runDisciplined at hr
    split at hr
    · rename_i ha
      simp only [Option.bind_eq_some] at hr
      obtain ⟨d1, hs, hr'⟩ := hr
      exact ih d1 d' (inv_step d d1 a h1 hs) (shutdownInv_step h1 h2 ha hs) hr'
    · simp at hr

/-- A worker only returns on a timeout that finds `finish` set. -/
theorem finish_of_exit {d d' : Dispatcher F A} {w : Nat} {a : Action F A}
    (hs : d.step a = some d') (hw : d.workers[w]? ≠ some WorkerPc.exited)
    (hw' : d'.workers[w]? = some WorkerPc.exited) : d.finish = true := by
  have hfetch : ∀ v old, d.workers[v]? = some old →
      (d.workerFetch v).workers[w]? ≠ some WorkerPc.exited := by
    intro v old hv
    unfold workerFetch
    split
    · show (d.workers.set v WorkerPc.waiting)[w]? ≠ _
      rw [getElem?_set_of_some hv]
      split
      · simp
      · exact hw
    · show (d.workers.set v (WorkerPc.working d.buffer.pop.1))[w]? ≠ _
      rw [getElem?_set_of_some hv]
      split
      · simp
      · exact hw
  have hadd : ∀ c f x, (d.addTask c f x).workers = d.workers := by
    intro c f x
    unfold addTask
    split <;> rfl
  rcases step_cases hs with ⟨c, n, rfl, hc, rfl⟩ | ⟨c, f, x, rfl, hc, rfl⟩ |
    ⟨c, rfl, hc, rfl⟩ | ⟨c, rfl, hc, rfl⟩ | ⟨c, pc, rfl, hc, hp, rfl⟩ |
    ⟨c, f, x, rfl, hc, rfl⟩ | ⟨c, j, rfl, hc, rfl⟩ | ⟨c, rfl, hc, rfl⟩ |
    ⟨c, rfl, hc, hall, rfl⟩ | ⟨v, rfl, hv, rfl⟩ | ⟨v, t, rfl, hv, rfl⟩ |
    ⟨v, pick, task, rfl, hv, hn, rfl⟩ | ⟨v, task, rfl, hv, rfl⟩ |
    ⟨v, task, rfl, hv, rfl⟩
  · exfalso
    simp only [spawnWorkers, List.getElem?_append, List.getElem?_replicate] at hw'
    split at hw'
    · exact hw hw'
    · split at hw' <;> simp at hw'
  · rw [hadd] at hw'; exact absurd hw' hw
  · rw [(syncWorkers_shared d c false).2.2] at hw'; exact absurd hw' hw
  · rw [(syncWorkers_shared _ c true).2.2] at hw'; exact absurd hw' hw
  · exact absurd hw' hw
  · rw [hadd] at hw'; exact absurd hw' hw
  · rw [(syncWorkers_shared d c j).2.2] at hw'; exact absurd hw' hw
  · exact absurd hw' hw
  · exact absurd hw' hw
  · exact absurd hw' (hfetch v _ hv)
  · unfold workerWake at hw'
    split at hw'
    · rename_i hcond
      simp only [Bool.and_eq_true] at hcond
      exact hcond.2
    · exact absurd hw' (hfetch v _ hv)
  · exfalso
    have : (d.workers.set v WorkerPc.start)[w]? = some WorkerPc.exited := hw'
    rw [getElem?_set_of_some hv] at this
    split at this
    · simp at this
    · exact hw this
  · exfalso
    have : (d.workers.set v (WorkerPc.running task))[w]? = some WorkerPc.exited := hw'
    rw [getElem?_set_of_some hv] at this
    split at this
    · simp at this
    · exact hw this
  · exfalso
    have : (d.workers.set v (WorkerPc.aborted task))[w]? = some WorkerPc.exited := hw'
    rw [getElem?_set_of_some hv] at this
    split at this
    · simp at this
    · exact hw this

/-- C7: when no `addTask` call is made once `joinWorkers` has been called and
`joinWorkers` is called only with no `addTask` call in progress, every
reachable state with `finish == true` has an empty queue, `numWorking == 0`
and no worker holding a task; the same holds in every state in which a client
is about to set the flag, and a step in which a worker returns is taken only
in such a state. -/
theorem shutdown_loses_no_work [Inhabited F] [Inhabited A] (n : Nat)
    (acts : List (Action F A)) (d : Dispatcher F A)
    (hr : (new n).runDisciplined acts = some d) :
    (d.finish = true →
      d.buffer.empty = true ∧ d.numWorking = 0 ∧ d.inFlight = []) ∧
    (ClientPc.joinLocking ∈ d.clients →
      d.buffer.empty = true ∧ d.numWorking = 0 ∧ d.inFlight = []) ∧
    (∀ (a : Action F A) (d' : Dispatcher F A) (w : Nat), d.step a = some d' →
      d.workers[w]? ≠ some WorkerPc.exited → d'.workers[w]? = some WorkerPc.exited →
      d.buffer.empty = true ∧ d.numWorking = 0 ∧ d.inFlight = []) := by
  obtain ⟨hinv, hsd⟩ := shutdownInv_run acts _ d (inv_new n) (shutdownInv_new n) hr
  have key : d.Drained → d.buffer.empty = true ∧ d.numWorking = 0 ∧ d.inFlight = [] := by
    intro hd
    refine drained_of_syncPredicate hinv ?_
    simp [syncPredicate, allIdle, RingBuffer.empty, hd.1, hd.2]
  refine ⟨fun hf => key (hsd.flag hf).2, fun hm => key (hsd.locking hm), ?_⟩
  intro a d' w hs hw hw'
  exact key (hsd.flag (finish_of_exit hs hw hw')).2

theorem shutdown_loses_no_work_witness :
    ∃ d : Dispatcher Nat Nat,
      (new 1).runDisciplined [.spawnWorkers 0 1, .addTask 0 1 10, .joinWorkers 0,
        .workerLock 0, .workerCall 0, .workerDone 0 0, .resume 0, .setFinish 0, .workerLock 0,
        .workerWake 0 true, .joinDone 0] = some d ∧
      d.finish = true ∧ d.numWorking = 0 ∧ d.inFlight = [] := by
  have hr : ((new 1 : Dispatcher Nat Nat).runDisciplined [.spawnWorkers 0 1,
      .addTask 0 1 10, .joinWorkers 0, .workerLock 0, .workerCall 0, .workerDone 0 0, .resume 0,
      .setFinish 0, .workerLock 0, .workerWake 0 true, .joinDone 0]).isSome = true := rfl
  have hd := (Option.some_get hr).symm
  have hthm := (shutdown_loses_no_work 1 _ _ hd).1 rfl
  exact ⟨_, hd, rfl, hthm.2.1, hthm.2.2⟩

/-! ## The completion signal -/

theorem wake_not_suspended (pc : ClientPc F A) : pc.wake.isSuspended = false := by
  cases pc <;> rfl

theorem wake_runnable (pc : ClientPc F A) (h : pc.isSuspended = true) :
    pc.wake.isRunnable = true := by
  cases pc <;> simp [ClientPc.isSuspended] at h <;> rfl

theorem getElem?_notifyOne (l : List (ClientPc F A)) (pick c : Nat) :
    (notifyOne l pick)[c]? =
      if c = pick then l[c]?.map ClientPc.wake else l[c]? := by
  unfold notifyOne
  split
  · rename_i pc hpc
    rw [getElem?_set_of_some hpc]
    by_cases h : pick = c
    · subst h; simp [hpc]
    · have h' : ¬ c = pick := fun e => h e.symm
      simp [h, h']
  · rename_i hnone
    by_cases h : c = pick
    · subst h; simp [hnone]
    · simp [h]

/-- C10 (as stated, refuted): two clients share the dispatcher, client 0 is
suspended in `addTask` on a full queue and client 1 in `syncWorkers`; a worker
pops a task and its completion signal goes to client 1. After that step the
queue is not full, so the predicate of client 0 holds, and client 0 is still
suspended. -/
theorem completion_signal_misses_producer :
    ¬ ∀ (d d' : Dispatcher Nat Nat) (w pick c : Nat) (pc : ClientPc Nat Nat),
        d.Reachable → d.step (.workerDone w pick) = some d' →
        d'.clients[c]? = some pc → d'.waitPredicate pc = true →
        pc.isSuspended = false := by
  intro hall
  have h0 : ((new 2 : Dispatcher Nat Nat).run
      (.spawnWorkers 1 1 :: List.replicate 8 (.addTask 0 7 7) ++
        [.addTask 0 9 9, .syncWorkers 1, .workerLock 0, .workerCall 0])).isSome = true := rfl
  have hd := (Option.some_get h0).symm
  have h1 : ((((new 2 : Dispatcher Nat Nat).run
      (.spawnWorkers 1 1 :: List.replicate 8 (.addTask 0 7 7) ++
        [.addTask 0 9 9, .syncWorkers 1, .workerLock 0, .workerCall 0])).get h0).step
          (.workerDone 0 1)).isSome = true := rfl
  have hd1 := (Option.some_get h1).symm
  have := hall _ _ 0 1 0 (ClientPc.addSuspended 9 9) ⟨2, _, hd⟩ hd1 rfl rfl
  simp [ClientPc.isSuspended] at this

/-- C10 (amended): the completion signal of a worker is a `notify_one`. After
the step `numWorking--; consumer_ready.notify_one()` the notified client is
woken and every other client is where it was; the notified client is a
suspended one whenever some client is suspended. Hence, when at most one
client is suspended on `consumer_ready` (as when a single thread is producer
and controller), every client that was suspended is runnable after the step
and no client is left suspended. -/
theorem completion_signal_wakes_one (d d' : Dispatcher F A) (w pick : Nat)
    (hs : d.step (.workerDone w pick) = some d') :
    (∀ c, d'.clients[c]? =
      if c = pick then d.clients[c]?.map ClientPc.wake else d.clients[c]?) ∧
    ((∃ pc ∈ d.clients, pc.isSuspended = true) →
      ∃ pc, d.clients[pick]? = some pc ∧ pc.isSuspended = true) ∧
    (d.clients.length ≤ 1 → d.AtMostOneSuspended) ∧
    (d.AtMostOneSuspended →
      (∀ (c : Nat) (pc : ClientPc F A), d.clients[c]? = some pc →
        pc.isSuspended = true →
        d'.clients[c]? = some pc.wake ∧ pc.wake.isRunnable = true) ∧
      (∀ (c : Nat) (pc : ClientPc F A), d'.clients[c]? = some pc →
        pc.isSuspended = false)) := by
  obtain ⟨task, hn, rfl⟩ : ∃ task, canNotify d.clients pick = true ∧
      d' = d.workerDone w task pick := by
    rcases step_cases hs with ⟨_, _, h, _⟩ | ⟨_, _, _, h, _⟩ | ⟨_, h, _⟩ | ⟨_, h, _⟩ |
      ⟨_, _, h, _⟩ | ⟨_, _, _, h, _⟩ | ⟨_, _, h, _⟩ | ⟨_, h, _⟩ | ⟨_, h, _⟩ |
      ⟨_, h, _⟩ | ⟨_, _, h, _⟩ | ⟨w', pick', task, h, _, hn, hd⟩ | ⟨_, _, h, _⟩ |
      ⟨_, _, h, _⟩
    all_goals first
      | (exfalso; exact Action.noConfusion h)
      | skip
    simp only [Action.workerDone.injEq] at h
    obtain ⟨rfl, rfl⟩ := h
    exact ⟨task, hn, hd⟩
  have hcl : ∀ c, (d.workerDone w task pick).clients[c]? =
      if c = pick then d.clients[c]?.map ClientPc.wake else d.clients[c]? :=
    fun c => getElem?_notifyOne d.clients pick c
  have hpick : (∃ pc ∈ d.clients, pc.isSuspended = true) →
      ∃ pc, d.clients[pick]? = some pc ∧ pc.isSuspended = true := by
    rintro ⟨q, hq, hqs⟩
    unfold canNotify at hn
    split at hn
    · rename_i pc hpc
      simp only [Bool.or_eq_true, List.all_eq_true, Bool.not_eq_true'] at hn
      rcases hn with hn | hn
      · exact ⟨pc, hpc, hn⟩
      · rw [hn q hq] at hqs; simp at hqs
    · simp only [List.all_eq_true, Bool.not_eq_true'] at hn
      rw [hn q hq] at hqs; simp at hqs
  refine ⟨hcl, hpick, ?_, ?_⟩
  · intro hlen c c' pc pc' hc hc' _ _
    have h1 : c < d.clients.length := (List.getElem?_eq_some.mp hc).1
    have h2 : c' < d.clients.length := (List.getElem?_eq_some.mp hc').1
    omega
  · intro hone
    have hwoken : ∀ c pc, d.clients[c]? = some pc → pc.isSuspended = true → c = pick := by
      intro c pc hc hpc
      obtain ⟨q, hq, hqs⟩ := hpick ⟨pc, List.getElem?_mem hc, hpc⟩
      exact hone c pick pc q hc hq hpc hqs
    refine ⟨?_, ?_⟩
    · intro c pc hc hpc
      have := hwoken c pc hc hpc
      subst this
      refine ⟨?_, wake_runnable pc hpc⟩
      rw [hcl]
      simp [hc]
    · intro c pc hc
      rw [hcl] at hc
      split at hc
      · rename_i hcp
        simp only [Option.map_eq_some'] at hc
        obtain ⟨q, _, hq⟩ := hc
        rw [← hq]
        exact wake_not_suspended q
      · rename_i hcp
        cases hps : pc.isSuspended
        · rfl
        · exact absurd (hwoken c pc hc hps) hcp

theorem completion_signal_wakes_one_witness :
    ∃ d d' : Dispatcher Nat Nat,
      (new 1).run [.spawnWorkers 0 1, .addTask 0 1 10, .workerLock 0,
        .workerCall 0, .syncWorkers 0] = some d ∧
      d.step (.workerDone 0 0) = some d' ∧ d.AtMostOneSuspended ∧
      d.clients[0]? = some (ClientPc.syncSuspended false) ∧
      d'.clients[0]? = some (ClientPc.syncRunnable false) := by
  have h0 : ((new 1 : Dispatcher Nat Nat).run [.spawnWorkers 0 1, .addTask 0 1 10,
      .workerLock 0, .workerCall 0, .syncWorkers 0]).isSome = true := rfl
  have hd := (Option.some_get h0).symm
  have h1 : ((((new 1 : Dispatcher Nat Nat).run [.spawnWorkers 0 1, .addTask 0 1 10,
      .workerLock 0, .workerCall 0, .syncWorkers 0]).get h0).step (.workerDone 0 0)).isSome = true := rfl
  have hd1 := (Option.some_get h1).symm
  have hthm := completion_signal_wakes_one _ _ 0 0 hd1
  have hone := hthm.2.2.1 (Nat.le_of_eq rfl)
  exact ⟨_, _, hd, hd1, hone, rfl, ((hthm.2.2.2 hone).1 0 _ rfl rfl).1⟩

/-! ## Workers in flight, exit and the shutdown flag -/

theorem length_filterMap_eq_filter {α β : Type} (f : α → Option β) (l : List α) :
    (l.filterMap f).length = (l.filter (fun a => (f a).isSome)).length := by
  induction l with
  | nil => rfl
  | cons a l ih =>
    simp only [List.filterMap_cons, List.filter_cons]
    cases f a <;> simp [ih]

theorem joinInv_new [Inhabited F] [Inhabited A] (n : Nat) :
    (new n : Dispatcher F A).JoinInv := by
  refine ⟨?_, ?_⟩
  · intro h; simp [new] at h
  · intro pc hpc hj
    simp only [new, List.mem_replicate] at hpc
    rw [hpc.2] at hj
    simp [ClientPc.inJoin] at hj

theorem joinInv_of {d d' : Dispatcher F A} (h : d.JoinInv)
    (hj : d.joinCalled = true → d'.joinCalled = true)
    (hf : d'.finish = true → d.finish = true ∨ d'.joinCalled = true)
    (hc : ∀ pc ∈ d'.clients, pc ∈ d.clients ∨ (pc.inJoin = true → d'.joinCalled = true)) :
    d'.JoinInv := by
  refine ⟨?_, ?_⟩
  · intro hfin
    rcases hf hfin with h' | h'
    · exact hj (h.1 h')
    · exact h'
  · intro pc hpc hin
    rcases hc pc hpc with h' | h'
    · exact hj (h.2 pc h' hin)
    · exact h' hin

theorem joinInv_step {d d' : Dispatcher F A} {a : Action F A} (h : d.JoinInv)
    (hs : d.step a = some d') : d'.JoinInv := by
  have hfetch : ∀ w, (d.workerFetch w).JoinInv := by
    intro w
    unfold workerFetch
    split <;> exact joinInv_of h id Or.inl (fun pc hpc => Or.inl hpc)
  have hadd : ∀ c f x, (d.addTask c f x).JoinInv := by
    intro c f x
    unfold addTask
    split <;>
      exact joinInv_of h id Or.inl (mem_set_cases _ (by simp [ClientPc.inJoin]))
  rcases step_cases hs with ⟨c, n, rfl, hc, rfl⟩ | ⟨c, f, x, rfl, hc, rfl⟩ |
    ⟨c, rfl, hc, rfl⟩ | ⟨c, rfl, hc, rfl⟩ | ⟨c, pc, rfl, hc, hp, rfl⟩ |
    ⟨c, f, x, rfl, hc, rfl⟩ | ⟨c, j, rfl, hc, rfl⟩ | ⟨c, rfl, hc, rfl⟩ |
    ⟨c, rfl, hc, hall, rfl⟩ | ⟨w, rfl, hw, rfl⟩ | ⟨w, t, rfl, hw, rfl⟩ |
    ⟨w, pick, task, rfl, hw, hn, rfl⟩ | ⟨w, task, rfl, hw, rfl⟩ |
    ⟨w, task, rfl, hw, rfl⟩
  · exact joinInv_of h id Or.inl (fun pc hpc => Or.inl hpc)
  · exact hadd c f x
  · unfold syncWorkers
    split <;>
      exact joinInv_of h id Or.inl (mem_set_cases _ (by simp [ClientPc.inJoin]))
  · unfold syncWorkers
    split <;>
      exact joinInv_of h (fun _ => rfl) (fun _ => Or.inr rfl)
        (fun pc _ => Or.inr (fun _ => rfl))
  · refine joinInv_of h id Or.inl (mem_set_cases _ ?_)
    rw [wake_inJoin]
    exact h.2 pc (List.getElem?_mem hc)
  · exact hadd c f x
  · have hold : j = true → d.joinCalled = true := fun hj =>
      h.2 _ (List.getElem?_mem hc) (by simpa [ClientPc.inJoin] using hj)
    unfold syncWorkers
    split
    · refine joinInv_of h id Or.inl (mem_set_cases _ ?_)
      cases j
      · simp [ClientPc.inJoin]
      · exact fun _ => hold rfl
    · exact joinInv_of h id Or.inl (mem_set_cases _ (by simpa [ClientPc.inJoin] using hold))
  · have hjc : d.joinCalled = true := h.2 _ (List.getElem?_mem hc) rfl
    exact joinInv_of h id (fun _ => Or.inr hjc) (fun pc _ => Or.inr (fun _ => hjc))
  · exact joinInv_of h id Or.inl (mem_set_cases _ (by simp [ClientPc.inJoin]))
  · exact hfetch w
  · unfold workerWake
    split
    · exact joinInv_of h id Or.inl (fun pc hpc => Or.inl hpc)
    · exact hfetch w
  · refine joinInv_of h id Or.inl ?_
    intro pc hpc
    have hpc' : pc ∈ notifyOne d.clients pick := hpc
    unfold notifyOne at hpc'
    split at hpc'
    · rename_i q hq
      rcases List.mem_or_eq_of_mem_set hpc' with h' | h'
      · exact Or.inl h'
      · refine Or.inr ?_
        rw [h', wake_inJoin]
        exact h.2 q (List.getElem?_mem hq)
    · exact Or.inl hpc'
  · exact joinInv_of h id Or.inl (fun pc hpc => Or.inl hpc)
  · exact joinInv_of h id Or.inl (fun pc hpc => Or.inl hpc)

theorem joinInv_run (acts : List (Action F A)) :
    ∀ d d' : Dispatcher F A, d.JoinInv → d.run acts = some d' → d'.JoinInv := by
  induction acts with
  | nil =>
    intro d d' h hr
    simp only [run, Option.some.injEq] at hr
    subst hr
    exact h
  | cons a acts ih =>
    intro d d' h hr
    simp only [run, Option.bind_eq_some] at hr
    obtain ⟨d1, h1, h2⟩ := hr
    exact ih d1 d' (joinInv_step h h1) h2

/-- The step in which a worker returns: a wake-up from `wait_for` by timeout,
taken by a waiting worker with `finish` set; it changes that worker's control
point and nothing else. -/
theorem exit_step {d d' : Dispatcher F A} {w : Nat} {a : Action F A}
    (hs : d.step a = some d') (hw : d.workers[w]? ≠ some WorkerPc.exited)
    (hw' : d'.workers[w]? = some WorkerPc.exited) :
    a = Action.workerWake w true ∧ d.workers[w]? = some WorkerPc.waiting ∧
    d' = { d with workers := d.workers.set w WorkerPc.exited } := by
  have hfin := finish_of_exit hs hw hw'
  have hfetch : ∀ v old, d.workers[v]? = some old →
      (d.workerFetch v).workers[w]? ≠ some WorkerPc.exited := by
    intro v old hv
    unfold workerFetch
    split
    · show (d.workers.set v WorkerPc.waiting)[w]? ≠ _
      rw [getElem?_set_of_some hv]
      split
      · simp
      · exact hw
    · show (d.workers.set v (WorkerPc.working d.buffer.pop.1))[w]? ≠ _
      rw [getElem?_set_of_some hv]
      split
      · simp
      · exact hw
  have hadd : ∀ c f x, (d.addTask c f x).workers = d.workers := by
    intro c f x
    unfold addTask
    split <;> rfl
  rcases step_cases hs with ⟨c, n, rfl, hc, rfl⟩ | ⟨c, f, x, rfl, hc, rfl⟩ |
    ⟨c, rfl, hc, rfl⟩ | ⟨c, rfl, hc, rfl⟩ | ⟨c, pc, rfl, hc, hp, rfl⟩ |
    ⟨c, f, x, rfl, hc, rfl⟩ | ⟨c, j, rfl, hc, rfl⟩ | ⟨c, rfl, hc, rfl⟩ |
    ⟨c, rfl, hc, hall, rfl⟩ | ⟨v, rfl, hv, rfl⟩ | ⟨v, t, rfl, hv, rfl⟩ |
    ⟨v, pick, task, rfl, hv, hn, rfl⟩ | ⟨v, task, rfl, hv, rfl⟩ |
    ⟨v, task, rfl, hv, rfl⟩
  · exfalso
    simp only [spawnWorkers, List.getElem?_append, List.getElem?_replicate] at hw'
    split at hw'
    · exact hw hw'
    · split at hw' <;> simp at hw'
  · rw [hadd] at hw'; exact absurd hw' hw
  · rw [(syncWorkers_shared d c false).2.2] at hw'; exact absurd hw' hw
  · rw [(syncWorkers_shared _ c true).2.2] at hw'; exact absurd hw' hw
  · exact absurd hw' hw
  · rw [hadd] at hw'; exact absurd hw' hw
  · rw [(syncWorkers_shared d c j).2.2] at hw'; exact absurd hw' hw
  · exact absurd hw' hw
  · exact absurd hw' hw
  · exact absurd hw' (hfetch v _ hv)
  · unfold workerWake at hw' ⊢
    split
    · rename_i hcond
      simp only [Bool.and_eq_true] at hcond
      rw [if_pos (by simp [hcond.1, hcond.2])] at hw'
      have hset : (d.workers.set v WorkerPc.exited)[w]? = some WorkerPc.exited := hw'
      rw [getElem?_set_of_some hv] at hset
      split at hset
      · rename_i hvw
        subst hvw
        rw [hcond.1]
        exact ⟨rfl, hv, rfl⟩
      · exact absurd hset hw
    · rename_i hcond
      rw [if_neg hcond] at hw'
      exact absurd hw' (hfetch v _ hv)
  · exfalso
    have : (d.workers.set v WorkerPc.start)[w]? = some WorkerPc.exited := hw'
    rw [getElem?_set_of_some hv] at this
    split at this
    · simp at this
    · exact hw this
  · exfalso
    have : (d.workers.set v (WorkerPc.running task))[w]? = some WorkerPc.exited := hw'
    rw [getElem?_set_of_some hv] at this
    split at this
    · simp at this
    · exact hw this
  · exfalso
    have : (d.workers.set v (WorkerPc.aborted task))[w]? = some WorkerPc.exited := hw'
    rw [getElem?_set_of_some hv] at this
    split at this
    · simp at this
    · exact hw this

theorem finish_step {d d' : Dispatcher F A} {a : Action F A}
    (hs : d.step a = some d') (hf : d.finish = true) : d'.finish = true := by
  have hfetch : ∀ w, (d.workerFetch w).finish = d.finish := by
    intro w
    unfold workerFetch
    split <;> rfl
  have hadd : ∀ c f x, (d.addTask c f x).finish = d.finish := by
    intro c f x
    unfold addTask
    split <;> rfl
  have hsync : ∀ (e : Dispatcher F A) c j, (e.syncWorkers c j).finish = e.finish := by
    intro e c j
    unfold syncWorkers
    split <;> rfl
  rcases step_cases hs with ⟨c, n, rfl, hc, rfl⟩ | ⟨c, f, x, rfl, hc, rfl⟩ |
    ⟨c, rfl, hc, rfl⟩ | ⟨c, rfl, hc, rfl⟩ | ⟨c, pc, rfl, hc, hp, rfl⟩ |
    ⟨c, f, x, rfl, hc, rfl⟩ | ⟨c, j, rfl, hc, rfl⟩ | ⟨c, rfl, hc, rfl⟩ |
    ⟨c, rfl, hc, hall, rfl⟩ | ⟨w, rfl, hw, rfl⟩ | ⟨w, t, rfl, hw, rfl⟩ |
    ⟨w, pick, task, rfl, hw, hn, rfl⟩ | ⟨w, task, rfl, hw, rfl⟩ |
    ⟨w, task, rfl, hw, rfl⟩
  · exact hf
  · rw [hadd]; exact hf
  · rw [hsync]; exact hf
  · rw [hsync]; exact hf
  · exact hf
  · rw [hadd]; exact hf
  · rw [hsync]; exact hf
  · rfl
  · exact hf
  · rw [hfetch]; exact hf
  · unfold workerWake
    split
    · exact hf
    · rw [hfetch]; exact hf
  · exact hf
  · exact hf
  · exact hf

theorem finish_run (acts : List (Action F A)) :
    ∀ d d' : Dispatcher F A, d.run acts = some d' → d.finish = true →
      d'.finish = true := by
  induction acts with
  | nil =>
    intro d d' hr hf
    simp only [run, Option.some.injEq] at hr
    subst hr
    exact hf
  | cons a acts ih =>
    intro d d' hr hf
    simp only [run, Option.bind_eq_some] at hr
    obtain ⟨d1, h1, h2⟩ := hr
    exact ih d1 d' h2 (finish_step h1 hf)

/-- C13: in every reachable state `numWorking` is the number of workers that
hold a popped task, that is, that have executed their first critical section
(`pop`, `numWorking++`) and not yet their second (`numWorking--`); hence it
is at least 0 and at most the number of spawned workers. -/
theorem numWorking_counts_busy_workers [Inhabited F] [Inhabited A]
    (d : Dispatcher F A) (h : d.Reachable) :
    d.numWorking = ((d.workers.filter (fun pc => pc.task?.isSome)).length : Int) ∧
    0 ≤ d.numWorking ∧ d.numWorking ≤ (d.workers.length : Int) := by
  have hw := (inv_of_reachable d h).working
  have hl : d.inFlight.length = (d.workers.filter (fun pc => pc.task?.isSome)).length :=
    length_filterMap_eq_filter _ _
  have hle : (d.workers.filter (fun pc => pc.task?.isSome)).length ≤ d.workers.length :=
    List.length_filter_le _ _
  rw [hl] at hw
  refine ⟨hw, ?_, ?_⟩
  · rw [hw]; exact Int.natCast_nonneg _
  · rw [hw]; exact_mod_cast hle

theorem numWorking_counts_busy_workers_witness :
    ∃ d : Dispatcher Nat Nat,
      (new 1).run [.spawnWorkers 0 3, .addTask 0 1 10, .addTask 0 2 20,
        .addTask 0 3 30, .workerLock 2, .workerLock 0, .workerCall 2, .workerDone 2 0] = some d ∧
      d.numWorking = 1 ∧ d.numWorking ≤ (d.workers.length : Int) := by
  have h0 : ((new 1 : Dispatcher Nat Nat).run [.spawnWorkers 0 3, .addTask 0 1 10,
      .addTask 0 2 20, .addTask 0 3 30, .workerLock 2, .workerLock 0,
      .workerCall 2, .workerDone 2 0]).isSome = true := rfl
  have hd := (Option.some_get h0).symm
  have hthm := numWorking_counts_busy_workers _ ⟨1, _, hd⟩
  exact ⟨_, hd, rfl, hthm.2.2⟩

/-- The step in which a worker is ended by its job: the job it had called
throws; the step changes that worker's control point and nothing else. -/
theorem abort_step {d d' : Dispatcher F A} {w : Nat} {a : Action F A}
    {task : task_t F A}
    (hs : d.step a = some d') (hw : d.workers[w]? ≠ some (WorkerPc.aborted task))
    (hw' : d'.workers[w]? = some (WorkerPc.aborted task)) :
    a = Action.workerThrow w ∧ d.workers[w]? = some (WorkerPc.running task) ∧
    d' = d.workerThrow w task := by
  have hset : ∀ (v : Nat) (old new : WorkerPc F A), d.workers[v]? = some old →
      new ≠ WorkerPc.aborted task →
      (d.workers.set v new)[w]? ≠ some (WorkerPc.aborted task) := by
    intro v old new hv hnew
    rw [getElem?_set_of_some hv]
    split
    · simpa using hnew
    · exact hw
  have hfetch : ∀ v old, d.workers[v]? = some old →
      (d.workerFetch v).workers[w]? ≠ some (WorkerPc.aborted task) := by
    intro v old hv
    unfold workerFetch
    split
    · exact hset v old _ hv (by simp)
    · exact hset v old _ hv (by simp)
  have hadd : ∀ c f x, (d.addTask c f x).workers = d.workers := by
    intro c f x
    unfold addTask
    split <;> rfl
  rcases step_cases hs with ⟨c, n, rfl, hc, rfl⟩ | ⟨c, f, x, rfl, hc, rfl⟩ |
    ⟨c, rfl, hc, rfl⟩ | ⟨c, rfl, hc, rfl⟩ | ⟨c, pc, rfl, hc, hp, rfl⟩ |
    ⟨c, f, x, rfl, hc, rfl⟩ | ⟨c, j, rfl, hc, rfl⟩ | ⟨c, rfl, hc, rfl⟩ |
    ⟨c, rfl, hc, hall, rfl⟩ | ⟨v, rfl, hv, rfl⟩ | ⟨v, t, rfl, hv, rfl⟩ |
    ⟨v, pick, task', rfl, hv, hn, rfl⟩ | ⟨v, task', rfl, hv, rfl⟩ |
    ⟨v, task', rfl, hv, rfl⟩
  · exfalso
    simp only [spawnWorkers, List.getElem?_append, List.getElem?_replicate] at hw'
    split at hw'
    · exact hw hw'
    · split at hw' <;> simp at hw'
  · rw [hadd] at hw'; exact absurd hw' hw
  · rw [(syncWorkers_shared d c false).2.2] at hw'; exact absurd hw' hw
  · rw [(syncWorkers_shared _ c true).2.2] at hw'; exact absurd hw' hw
  · exact absurd hw' hw
  · rw [hadd] at hw'; exact absurd hw' hw
  · rw [(syncWorkers_shared d c j).2.2] at hw'; exact absurd hw' hw
  · exact absurd hw' hw
  · exact absurd hw' hw
  · exact absurd hw' (hfetch v _ hv)
  · exfalso
    unfold workerWake at hw'
    split at hw'
    · exact hset v _ _ hv (by simp) hw'
    · exact hfetch v _ hv hw'
  · exact absurd hw' (hset v _ _ hv (by simp))
  · exact absurd hw' (hset v _ _ hv (by simp))
  · have hthrow : (d.workers.set v (WorkerPc.aborted task'))[w]? =
        some (WorkerPc.aborted task) := hw'
    rw [getElem?_set_of_some hv] at hthrow
    split at hthrow
    · rename_i hvw
      subst hvw
      simp only [Option.some.injEq, WorkerPc.aborted.injEq] at hthrow
      subst hthrow
      exact ⟨rfl, hv, rfl⟩
    · exact absurd hthrow hw

/-- C15 (as stated, refuted): a worker pops a task and calls its job, and the
job throws. That step ends the worker while `finish` is false, from the job
call and not from the wait, still holding its task (so still counted in
`numWorking`). -/
theorem worker_ends_mid_task :
    ¬ ∀ (d d' : Dispatcher Nat Nat) (a : Action Nat Nat) (w : Nat)
        (pc pc' : WorkerPc Nat Nat),
        d.Reachable → d.step a = some d' → d.workers[w]? = some pc →
        d'.workers[w]? = some pc' → pc.isEnded = false → pc'.isEnded = true →
        d.finish = true ∧ pc = WorkerPc.waiting ∧ pc'.task? = none := by
  intro hall
  have h0 : ((new 1 : Dispatcher Nat Nat).run [.spawnWorkers 0 1, .addTask 0 1 10,
      .workerLock 0, .workerCall 0]).isSome = true := rfl
  have hd := (Option.some_get h0).symm
  have h1 : ((((new 1 : Dispatcher Nat Nat).run [.spawnWorkers 0 1, .addTask 0 1 10,
      .workerLock 0, .workerCall 0]).get h0).step (.workerThrow 0)).isSome = true := rfl
  have hd1 := (Option.some_get h1).symm
  have := hall _ _ _ 0 (WorkerPc.running ⟨1, 10⟩) (WorkerPc.aborted ⟨1, 10⟩)
    ⟨1, _, hd⟩ hd1 rfl rfl rfl rfl
  have hfin : (((new 1 : Dispatcher Nat Nat).run [.spawnWorkers 0 1, .addTask 0 1 10,
      .workerLock 0, .workerCall 0]).get h0).finish = false := rfl
  rw [hfin] at this
  simp at this

/-- C15 (amended): in every reachable state, a step that ends a worker is one
of two. Either the worker returns: the step is the wake-up by timeout of a
worker inside `wait_for` (so not holding a task) with `finish == true`, hence
after `joinWorkers` was called, and it changes neither `numWorking` nor the
queue nor the tasks in flight. Or the job the worker had called throws: the
worker ends between its two critical sections, whatever `finish` is, its task
stays in flight and `numWorking` stays at least 1. In both cases `numWorking`
still counts the workers whose task is in flight. -/
theorem worker_ends_on_shutdown_or_throw [Inhabited F] [Inhabited A]
    (d d' : Dispatcher F A) (a : Action F A) (w : Nat) (pc pc' : WorkerPc F A)
    (h : d.Reachable) (hs : d.step a = some d') (hw : d.workers[w]? = some pc)
    (hw' : d'.workers[w]? = some pc') (hpc : pc.isEnded = false)
    (hpc' : pc'.isEnded = true) :
    ((a = Action.workerWake w true ∧ pc = WorkerPc.waiting ∧ pc' = WorkerPc.exited ∧
        d.finish = true ∧ d.joinCalled = true ∧ d'.buffer = d.buffer) ∨
      (∃ task, a = Action.workerThrow w ∧ pc = WorkerPc.running task ∧
        pc' = WorkerPc.aborted task ∧ d'.finish = d.finish ∧ task ∈ d'.inFlight ∧
        0 < d'.numWorking)) ∧
    d'.numWorking = d.numWorking ∧ d'.inFlight = d.inFlight ∧
    d'.numWorking = (d'.inFlight.length : Int) := by
  obtain ⟨n, acts, hr⟩ := h
  have hinv := inv_run acts _ d (inv_new n) hr
  have hinv' := inv_step d d' a hinv hs
  have hjoin := joinInv_run acts _ d (joinInv_new n) hr
  cases pc' with
  | start => simp [WorkerPc.isEnded] at hpc'
  | waiting => simp [WorkerPc.isEnded] at hpc'
  | working t => simp [WorkerPc.isEnded] at hpc'
  | running t => simp [WorkerPc.isEnded] at hpc'
  | exited =>
    have hne : d.workers[w]? ≠ some WorkerPc.exited := by
      rw [hw]
      intro he
      simp only [Option.some.injEq] at he
      rw [he] at hpc
      simp [WorkerPc.isEnded] at hpc
    have hfin := finish_of_exit hs hne hw'
    obtain ⟨ha, hwait, hd'⟩ := exit_step hs hne hw'
    have hpcw : pc = WorkerPc.waiting := by
      rw [hw] at hwait
      simpa using hwait
    have hfl : d'.inFlight = d.inFlight := by
      rw [hd']
      exact filterMap_set_of_none WorkerPc.task? WorkerPc.exited rfl _ _ _ hwait rfl
    refine ⟨Or.inl ⟨ha, hpcw, rfl, hfin, hjoin.1 hfin, by rw [hd']⟩, by rw [hd'], hfl,
      hinv'.working⟩
  | aborted task =>
    have hne : d.workers[w]? ≠ some (WorkerPc.aborted task) := by
      rw [hw]
      intro he
      simp only [Option.some.injEq] at he
      rw [he] at hpc
      simp [WorkerPc.isEnded] at hpc
    obtain ⟨ha, hrun, hd'⟩ := abort_step hs hne hw'
    have hpcr : pc = WorkerPc.running task := by
      rw [hw] at hrun
      simpa using hrun
    have hfl : d'.inFlight = d.inFlight := by
      rw [hd']
      exact filterMap_set_same WorkerPc.task? (WorkerPc.aborted task) _ _ _ hrun rfl
    have hmem : task ∈ d'.inFlight :=
      List.mem_filterMap.mpr ⟨_, List.getElem?_mem hw', rfl⟩
    have hpos : 0 < d'.numWorking := by
      rw [hinv'.working]
      exact_mod_cast List.length_pos_of_mem hmem
    refine ⟨Or.inr ⟨task, ha, hpcr, rfl, by rw [hd']; rfl, hmem, hpos⟩, by rw [hd']; rfl,
      hfl, hinv'.working⟩

theorem worker_ends_on_shutdown_or_throw_witness :
    ∃ d d' e e' : Dispatcher Nat Nat,
      (new 1).run [.spawnWorkers 0 1, .workerLock 0, .joinWorkers 0,
        .setFinish 0] = some d ∧
      d.step (.workerWake 0 true) = some d' ∧
      d'.workers[0]? = some WorkerPc.exited ∧ d.finish = true ∧
      d'.numWorking = d.numWorking ∧
      (new 1).run [.spawnWorkers 0 1, .addTask 0 1 10, .workerLock 0,
        .workerCall 0] = some e ∧
      e.step (.workerThrow 0) = some e' ∧
      e'.workers[0]? = some (WorkerPc.aborted ⟨1, 10⟩) ∧ e.finish = false ∧
      e'.numWorking = (e'.inFlight.length : Int) := by
  have h0 : ((new 1 : Dispatcher Nat Nat).run [.spawnWorkers 0 1, .workerLock 0,
      .joinWorkers 0, .setFinish 0]).isSome = true := rfl
  have hd := (Option.some_get h0).symm
  have h1 : ((((new 1 : Dispatcher Nat Nat).run [.spawnWorkers 0 1, .workerLock 0,
      .joinWorkers 0, .setFinish 0]).get h0).step (.workerWake 0 true)).isSome = true := rfl
  have hd1 := (Option.some_get h1).symm
  have hthm := worker_ends_on_shutdown_or_throw _ _ _ 0 WorkerPc.waiting WorkerPc.exited
    ⟨1, _, hd⟩ hd1 rfl rfl rfl rfl
  have h2 : ((new 1 : Dispatcher Nat Nat).run [.spawnWorkers 0 1, .addTask 0 1 10,
      .workerLock 0, .workerCall 0]).isSome = true := rfl
  have he := (Option.some_get h2).symm
  have h3 : ((((new 1 : Dispatcher Nat Nat).run [.spawnWorkers 0 1, .addTask 0 1 10,
      .workerLock 0, .workerCall 0]).get h2).step (.workerThrow 0)).isSome = true := rfl
  have he1 := (Option.some_get h3).symm
  have hthm' := worker_ends_on_shutdown_or_throw _ _ _ 0 (WorkerPc.running ⟨1, 10⟩)
    (WorkerPc.aborted ⟨1, 10⟩) ⟨1, _, he⟩ he1 rfl rfl rfl rfl
  exact ⟨_, _, _, _, hd, hd1, rfl, rfl, hthm.2.1, he, he1, rfl, rfl, hthm'.2.2.2⟩

/-- C16: `finish` is false in a freshly constructed dispatcher, and no step
of any thread (`spawnWorkers`, `addTask`, `syncWorkers`, `joinWorkers`, the
worker loop) takes it from true to false: once true in some state it is true
in every state reached from there. -/
theorem finish_is_monotonic [Inhabited F] [Inhabited A] (n : Nat)
    (d d' : Dispatcher F A) (acts : List (Action F A))
    (hr : d.run acts = some d') :
    (new n : Dispatcher F A).finish = false ∧
    (d.finish = true → d'.finish = true) ∧
    (∀ (a : Action F A) (e : Dispatcher F A), d.step a = some e →
      d.finish = true → e.finish = true) :=
  ⟨rfl, finish_run acts d d' hr, fun _ _ hs hf => finish_step hs hf⟩

theorem finish_is_monotonic_witness :
    ∃ d d' : Dispatcher Nat Nat,
      (new 1).run [.spawnWorkers 0 1, .joinWorkers 0, .setFinish 0] = some d ∧
      d.run [.workerLock 0, .workerWake 0 true, .joinDone 0, .spawnWorkers 0 2,
        .addTask 0 1 1, .syncWorkers 0] = some d' ∧
      d.finish = true ∧ d'.finish = true := by
  have h0 : ((new 1 : Dispatcher Nat Nat).run [.spawnWorkers 0 1, .joinWorkers 0,
      .setFinish 0]).isSome = true := rfl
  have hd := (Option.some_get h0).symm
  have h1 : ((((new 1 : Dispatcher Nat Nat).run [.spawnWorkers 0 1, .joinWorkers 0,
      .setFinish 0]).get h0).run [.workerLock 0, .workerWake 0 true, .joinDone 0,
        .spawnWorkers 0 2, .addTask 0 1 1, .syncWorkers 0]).isSome = true := rfl
  have hd1 := (Option.some_get h1).symm
  have hthm := finish_is_monotonic 1 _ _ _ hd1
  exact ⟨_, _, hd, hd1, rfl, hthm.2.1 rfl⟩

end Dispatcher

/-! ## Further claims about the ring buffer -/

/-- C14 (as stated, refuted): a ninth `push` on a full buffer reports nothing
and returns a buffer whose count is 9, whose write cursor has moved and in
which the oldest item (slot 0) has been overwritten; a `pop` on a fresh,
empty buffer reports nothing and returns a buffer whose read cursor has moved
and whose count has wrapped to `2 ^ 64 - 1`. -/
theorem precondition_violation_changes_buffer :
    (applyOps (RingBuffer.new : RingBuffer Nat 8)
        (List.replicate 8 (Op.push 1))).1.full = true ∧
    ((applyOps (RingBuffer.new : RingBuffer Nat 8)
        (List.replicate 8 (Op.push 1))).1.push 2).numFull = 9 ∧
    ((applyOps (RingBuffer.new : RingBuffer Nat 8)
        (List.replicate 8 (Op.push 1))).1.push 2).writePos = 1 ∧
    (applyOps (RingBuffer.new : RingBuffer Nat 8)
        (List.replicate 8 (Op.push 1))).1.buffer 0 = 1 ∧
    ((applyOps (RingBuffer.new : RingBuffer Nat 8)
        (List.replicate 8 (Op.push 1))).1.push 2).buffer 0 = 2 ∧
    (RingBuffer.new : RingBuffer Nat 8).empty = true ∧
    (RingBuffer.new : RingBuffer Nat 8).pop.2.numFull = 18446744073709551615 ∧
    (RingBuffer.new : RingBuffer Nat 8).pop.2.readPos = 1 := by
  decide

/-- C14 (amended): `push` and `pop` check nothing and always return. On a
well-formed full buffer `push` stores the item in the slot at the write
cursor, which is the slot of the oldest queued item, advances the write
cursor and raises the count to 9; on a well-formed empty buffer `pop` returns
the content of the slot at the read cursor, advances the read cursor and
wraps the unsigned count to `2 ^ 64 - 1`. -/
theorem precondition_violation_unchecked {T : Type} (b : RingBuffer T 8) (t : T)
    (hv : b.Valid) :
    (b.full = true →
      b.writePos = b.readPos ∧ (b.push t).buffer b.readPos = t ∧
      (b.push t).writePos = (b.writePos + 1) % 8 ∧
      (b.push t).readPos = b.readPos ∧ (b.push t).numFull = 9) ∧
    (b.empty = true →
      b.pop.1 = b.buffer b.readPos ∧ b.pop.2.readPos = (b.readPos + 1) % 8 ∧
      b.pop.2.writePos = b.writePos ∧ b.pop.2.buffer = b.buffer ∧
      b.pop.2.numFull = 18446744073709551615) := by
  obtain ⟨h1, h2, h3, h4⟩ := hv
  refine ⟨?_, ?_⟩
  · intro hf
    have hf' : b.numFull = 8 := by simpa [RingBuffer.full] using hf
    have hwr : b.writePos = b.readPos := by omega
    refine ⟨hwr, ?_, ?_, rfl, ?_⟩
    · rw [← hwr]
      simp [RingBuffer.push]
    · simp only [RingBuffer.push, sizeMod]; omega
    · simp only [RingBuffer.push, sizeMod]; omega
  · intro he
    have he' : b.numFull = 0 := by simpa [RingBuffer.empty] using he
    refine ⟨rfl, ?_, rfl, rfl, ?_⟩
    · simp only [RingBuffer.pop, sizeMod]; omega
    · simp only [RingBuffer.pop, sizeMod]; omega

theorem precondition_violation_unchecked_witness :
    ((RingBuffer.new : RingBuffer Nat 8).pop.2.numFull = 18446744073709551615) ∧
    ((RingBuffer.new : RingBuffer Nat 8).pop.2.readPos = 1) :=
  have h := (precondition_violation_unchecked (RingBuffer.new : RingBuffer Nat 8) 0
    RingBuffer.valid_new).2 rfl
  ⟨h.2.2.2.2, h.2.1⟩

/-- C17: in every state reached from the constructor by `push` calls made
when not full and `pop` calls made when not empty, both cursors are below 8
and the write cursor is the read cursor plus the count modulo 8; the cursors
coincide exactly when the buffer is empty or full. -/
theorem ringBuffer_representation {T : Type} [Inhabited T] (ops : List (Op T))
    (r : RingBuffer T 8 × List T)
    (h : runOps (RingBuffer.new : RingBuffer T 8) ops = some r) :
    r.1.readPos < 8 ∧ r.1.writePos < 8 ∧
    r.1.writePos = (r.1.readPos + r.1.numFull) % 8 ∧
    (r.1.readPos = r.1.writePos ↔ (r.1.empty = true ∨ r.1.full = true)) := by
  obtain ⟨h1, h2, h3, h4⟩ :=
    ((runOps_simulates ops RingBuffer.new RingBuffer.valid_new).1 r h).1
  refine ⟨h1, h2, h4, ?_⟩
  simp only [RingBuffer.empty, RingBuffer.full, beq_iff_eq]
  omega

theorem ringBuffer_representation_witness :
    ∃ r, runOps (RingBuffer.new : RingBuffer Nat 8)
        (List.replicate 8 (Op.push 1) ++ [Op.pop, Op.pop, Op.push 2, Op.push 3, Op.pop])
        = some r ∧
      r.1.writePos = (r.1.readPos + r.1.numFull) % 8 ∧ r.1.readPos < 8 := by
  have h : (runOps (RingBuffer.new : RingBuffer Nat 8)
      (List.replicate 8 (Op.push 1) ++ [Op.pop, Op.pop, Op.push 2, Op.push 3, Op.pop])).isSome
        = true := rfl
  obtain ⟨r, hr⟩ := Option.isSome_iff_exists.mp h
  have hthm := ringBuffer_representation _ r hr
  exact ⟨r, hr, hthm.2.2.1, hthm.1⟩

/-- C18: `pop` on a buffer whose count respects the capacity and that is not
empty returns the content of the slot at the read cursor, advances the read
cursor by one modulo 8, decrements the count by one, and leaves the write
cursor and every slot of the array unchanged (the popped item stays in its
slot). -/
theorem pop_frame {T : Type} (b : RingBuffer T 8)
    (hv : b.numFull ≤ 8) (he : b.empty = false) :
    b.pop.1 = b.buffer b.readPos ∧
    b.pop.2.readPos = (b.readPos + 1) % 8 ∧
    b.pop.2.numFull + 1 = b.numFull ∧
    b.pop.2.writePos = b.writePos ∧
    b.pop.2.buffer = b.buffer := by
  have he' : b.numFull ≠ 0 := by simpa [RingBuffer.empty] using he
  refine ⟨rfl, ?_, ?_, rfl, rfl⟩
  · simp only [RingBuffer.pop, sizeMod]; omega
  · simp only [RingBuffer.pop, sizeMod]; omega

theorem pop_frame_witness :
    ((RingBuffer.new : RingBuffer Nat 8).push 5).pop.1 = 5 ∧
    ((RingBuffer.new : RingBuffer Nat 8).push 5).pop.2.readPos = 1 ∧
    ((RingBuffer.new : RingBuffer Nat 8).push 5).pop.2.buffer 0 = 5 :=
  have h := pop_frame ((RingBuffer.new : RingBuffer Nat 8).push 5) (by decide) (by decide)
  ⟨h.1, h.2.1, by rw [h.2.2.2.2]; rfl⟩

/-! ## Claims about the jobs -/

/-- A loop that overflows within its first iterations overflows however many
iterations follow. -/
theorem forLoop_none_add (body : Int → Int → Option Int) (m : Nat) :
    ∀ (count : Nat) (i acc : Int), forLoop body count i acc = none →
      forLoop body (count + m) i acc = none := by
  intro count
  induction count with
  | zero =>
    intro i acc h
    simp [forLoop] at h
  | succ count ih =>
    intro i acc h
    rw [Nat.succ_add]
    simp only [forLoop] at h ⊢
    cases hb : body i acc with
    | none => simp
    | some v =>
      rw [hb] at h
      simp only [Option.some_bind] at h ⊢
      exact ih (i + 1) v h

/-- C11 (as stated, refuted): for `i = 1` the job called with `addUpTo = 10`
prints 45, the sum of 0 .. 9, and not the sum of 0 .. 10, which is
`10 * 11 / 2 = 55`. -/
theorem firstThing_excludes_bound :
    firstThing ⟨10 * 1⟩ = some 45 ∧
    firstThing ⟨10 * 1⟩ ≠ some (10 * 1 * (10 * 1 + 1) / 2) := by
  decide

set_option maxRecDepth 100000 in
/-- C11 (amended): for every `i` with `0 ≤ i < 20` the sum job called with
`addUpTo = 10 * i` computes, without overflow, the sum of the numbers below
`10 * i`, that is `0 + 1 + ... + (10 * i - 1) = 10 * i * (10 * i - 1) / 2`. -/
theorem firstThing_sums_below (i : Nat) (h : i < 20) :
    firstThing ⟨((10 * i : Nat) : Int)⟩ =
      some ((∑ j in Finset.range (10 * i), j : Nat) : Int) ∧
    ∑ j in Finset.range (10 * i), j = 10 * i * (10 * i - 1) / 2 := by
  refine ⟨?_, Finset.sum_range_id _⟩
  rw [Finset.sum_range_id]
  interval_cases i <;> decide

theorem firstThing_sums_below_witness :
    firstThing ⟨((10 * 3 : Nat) : Int)⟩ =
      some ((∑ j in Finset.range (10 * 3), j : Nat) : Int) :=
  (firstThing_sums_below 3 (by decide)).1

/-- C12 (as stated, refuted): for `i = 3` the job called with `multUpTo = 3`
prints 2, the product of 1 .. 2, and not `3! = 6`; for `i = 2` it prints 1
and not `2! = 2`. -/
theorem secondThing_excludes_bound :
    secondThing ⟨3⟩ = some 2 ∧ secondThing ⟨3⟩ ≠ some (Nat.factorial 3 : Nat) ∧
    secondThing ⟨2⟩ = some 1 ∧ secondThing ⟨2⟩ ≠ some (Nat.factorial 2 : Nat) := by
  decide

/-- C12 (amended): for every `i` with `0 ≤ i < 10` the product job called
with `multUpTo = i` computes, without overflow, the product of the positive
numbers below `i`, that is `1 * 2 * ... * (i - 1) = (i - 1)!`, which is 1
when `i ≤ 1`. -/
theorem secondThing_multiplies_below (i : Nat) (h : i < 10) :
    secondThing ⟨(i : Int)⟩ = some ((∏ j in Finset.Ico 1 i, j : Nat) : Int) ∧
    ∏ j in Finset.Ico 1 i, j = Nat.factorial (i - 1) := by
  have hp : ∏ j in Finset.Ico 1 i, j = Nat.factorial (i - 1) := by
    cases i with
    | zero => simp
    | succ k => simp
  refine ⟨?_, hp⟩
  rw [hp]
  interval_cases i <;> decide

theorem secondThing_multiplies_below_witness :
    secondThing ⟨((5 : Nat) : Int)⟩ = some ((∏ j in Finset.Ico 1 5, j : Nat) : Int) :=
  (secondThing_multiplies_below 5 (by decide)).1

/-- C19: for every `multUpTo = n ≤ 13` the accumulator of `secondThing` is,
after each number of iterations the loop makes, a factorial within the `int`
range, and the job ends with `(n - 1)!` (1 when `n ≤ 1`); `13!` exceeds
`2 ^ 31 - 1`, and for every `n ≥ 14` the multiplication by 13 overflows. So 13
is the largest argument for which the computation is free of overflow. -/
theorem secondThing_overflow_bound (n : Int) :
    (n ≤ 13 →
      secondThing ⟨n⟩ = some (Nat.factorial (n - 1).toNat : Nat) ∧
      ∀ m : Nat, m ≤ (n - 1).toNat →
        forLoop (fun i prod => checkedInt (prod * i)) m 1 1
            = some (Nat.factorial m : Nat) ∧
          INT_MIN ≤ (Nat.factorial m : Nat) ∧ ((Nat.factorial m : Nat) : Int) ≤ INT_MAX) ∧
    (14 ≤ n → secondThing ⟨n⟩ = none) ∧
    INT_MAX < (Nat.factorial 13 : Nat) := by
  have hsmall : ∀ m : Nat, m ≤ 12 →
      forLoop (fun i prod => checkedInt (prod * i)) m 1 1 = some (Nat.factorial m : Nat) ∧
        INT_MIN ≤ (Nat.factorial m : Nat) ∧ ((Nat.factorial m : Nat) : Int) ≤ INT_MAX := by
    intro m hm
    interval_cases m <;> decide
  refine ⟨?_, ?_, by decide⟩
  · intro hn
    have hk : (n - 1).toNat ≤ 12 := by omega
    exact ⟨(hsmall _ hk).1, fun m hm => hsmall m (le_trans hm hk)⟩
  · intro hn
    obtain ⟨k, hk⟩ : ∃ k, (n - 1).toNat = 13 + k := ⟨(n - 1).toNat - 13, by omega⟩
    unfold secondThing
    show forLoop _ (n - 1).toNat 1 1 = none
    rw [hk]
    exact forLoop_none_add _ k 13 1 1 (by decide)

theorem secondThing_overflow_bound_witness :
    secondThing ⟨13⟩ = some 479001600 ∧ secondThing ⟨14⟩ = none ∧
    secondThing ⟨100⟩ = none :=
  ⟨((secondThing_overflow_bound 13).1 (by decide)).1,
   (secondThing_overflow_bound 14).2.1 (by decide),
   (secondThing_overflow_bound 100).2.1 (by decide)⟩

end ProducerConsumer
